import Mathlib

/-!
# Verification of the sonya/sophy key-value layer specification

The repository is a Python binding (`sonya`, a fork of `sophy`) over the
sophia storage engine.  The binding itself (`sonya/sophia.pyx`) is not part
of the source tree here; only its test-suite and packaging are.  Following
the specification, we build a shallow embedding of the layer the spec
describes: the order-preserving typed codec, the byte-sorted store, the
slice/range engine, the optimistic transaction machine and the environment
lifecycle.  Where the spec's prose and the repository's own tests disagree,
the definitions follow the tests (they are the only executable code of the
repository present) and the divergence is proved explicitly.

Bytes are modelled as `Nat` (representable values carry a `< 256` bound
where it matters); byte strings are `List Nat`.
-/

namespace Sonya

/-- Three-way comparison on naturals, written out so proofs can case on the
`if`s directly. -/
def natCmp (a b : Nat) : Ordering :=
  if a < b then .lt else if b < a then .gt else .eq

/-- Byte-wise lexicographic three-way comparison of byte strings.  A strict
prefix compares less.  This is the order in which the engine stores and
iterates encoded keys. -/
def lexCmp : List Nat → List Nat → Ordering
  | [], [] => .eq
  | [], _ :: _ => .lt
  | _ :: _, [] => .gt
  | a :: as, b :: bs => if a < b then .lt else if b < a then .gt else lexCmp as bs

theorem natCmp_eq_iff (a b : Nat) : natCmp a b = .eq ↔ a = b := by
  unfold natCmp
  split <;> rename_i h
  · simp; omega
  · split <;> rename_i h2
    · simp; omega
    · simp; omega

theorem lexCmp_eq_iff : ∀ a b : List Nat, lexCmp a b = .eq ↔ a = b := by
  intro a
  induction a with
  | nil => intro b; cases b <;> simp [lexCmp]
  | cons x xs ih =>
    intro b
    cases b with
    | nil => simp [lexCmp]
    | cons y ys =>
      unfold lexCmp
      split <;> rename_i h
      · simp; omega
      · split <;> rename_i h2
        · simp; omega
        · have hxy : x = y := by omega
          simp [hxy, ih ys]

theorem lexCmp_self (a : List Nat) : lexCmp a a = .eq :=
  (lexCmp_eq_iff a a).mpr rfl

/-- Swapping the arguments swaps the verdict. -/
theorem lexCmp_swap : ∀ a b : List Nat, lexCmp b a = (lexCmp a b).swap := by
  intro a
  induction a with
  | nil => intro b; cases b <;> simp [lexCmp, Ordering.swap]
  | cons x xs ih =>
    intro b
    cases b with
    | nil => simp [lexCmp, Ordering.swap]
    | cons y ys =>
      unfold lexCmp
      by_cases h1 : x < y
      · have h2 : ¬ y < x := by omega
        simp [h1, h2, Ordering.swap]
      · by_cases h2 : y < x
        · simp [h1, h2, Ordering.swap]
        · simp [h1, h2, ih ys]

theorem lexCmp_trans_lt :
    ∀ a b c : List Nat, lexCmp a b = .lt → lexCmp b c = .lt → lexCmp a c = .lt := by
  intro a
  induction a with
  | nil =>
    intro b c hab hbc
    cases b with
    | nil => simpa using hbc
    | cons y ys =>
      cases c with
      | nil => simp [lexCmp] at hbc
      | cons z zs => simp [lexCmp]
  | cons x xs ih =>
    intro b c hab hbc
    cases b with
    | nil => simp [lexCmp] at hab
    | cons y ys =>
      cases c with
      | nil => simp [lexCmp] at hbc
      | cons z zs =>
        unfold lexCmp at hab hbc ⊢
        by_cases hxy : x < y
        · by_cases hyz : y < z
          · have : x < z := by omega
            simp [this]
          · by_cases hzy : z < y
            · simp [hyz, hzy] at hbc
            · have hy : y = z := by omega
              simp [hxy, ← hy]
        · by_cases hyx : y < x
          · simp [hxy, hyx] at hab
          · have hx : x = y := by omega
            subst hx
            by_cases hyz : x < z
            · simp [hyz]
            · by_cases hzy : z < x
              · simp [hyz, hzy] at hbc
              · have : x = z := by omega
                subst this
                simp [hxy] at hab hbc ⊢
                exact ih ys zs hab hbc

/-! ## Variable-length field encoding

Modelled from the spec: §4.1 requires variable-length `String`/`Bytes`
fragments to carry "an unambiguous terminator/escape scheme" that is
order-preserving; the exact byte layout is left to the implementer (§9,
open question).  We use the classic order-preserving NUL escape: payload
byte 0 becomes `[1, 1]`, payload byte 1 becomes `[1, 2]`, all other bytes
are copied, and the fragment ends with a single 0 terminator.  No encoded
payload unit starts with 0, so the terminator is unambiguous whatever
bytes follow it in the composite. -/

/-- Escape one payload byte of a variable-length field. -/
def escByte : Nat → List Nat
  | 0 => [1, 1]
  | 1 => [1, 2]
  | b => [b]

/-- Escape a whole payload. -/
def escBytes : List Nat → List Nat
  | [] => []
  | b :: rest => escByte b ++ escBytes rest

/-- Encoded fragment of a variable-length field: escaped payload plus the
0 terminator. -/
def encVar (bs : List Nat) : List Nat := escBytes bs ++ [0]

/-- Inverse of `escBytes ++ [0]`: read an escaped payload up to the first
unescaped 0 terminator, returning the payload and the unread rest.  Fails
on malformed input (no terminator, or a dangling escape byte). -/
def unesc : List Nat → Option (List Nat × List Nat)
  | [] => none
  | 0 :: rest => some ([], rest)
  | 1 :: 1 :: rest =>
    match unesc rest with
    | some (s, r) => some (0 :: s, r)
    | none => none
  | 1 :: 2 :: rest =>
    match unesc rest with
    | some (s, r) => some (1 :: s, r)
    | none => none
  | 1 :: _ => none
  | b :: rest =>
    match unesc rest with
    | some (s, r) => some (b :: s, r)
    | none => none

/-- Decoding a variable-length fragment consumes exactly the fragment and
returns the payload, whatever bytes follow. -/
theorem unesc_encVar : ∀ (bs r : List Nat), unesc (encVar bs ++ r) = some (bs, r) := by
  intro bs
  induction bs with
  | nil => intro r; simp [encVar, escBytes, unesc]
  | cons b t ih =>
    intro r
    match b with
    | 0 => simp [encVar, escBytes, escByte, unesc] at ih ⊢; simp [ih r]
    | 1 => simp [encVar, escBytes, escByte, unesc] at ih ⊢; simp [ih r]
    | (n + 2) =>
      have h1 : escByte (n + 2) = [n + 2] := rfl
      simp [encVar, escBytes, h1] at ih ⊢
      unfold unesc
      simp [ih r]

/-- Core ordering lemma for variable-length fields: comparing two encoded
fragments followed by arbitrary rests is the comparison of the payloads,
tie-broken by the rests.  In particular the encoding is strictly
order-preserving and a field boundary can never flip the verdict. -/
theorem lexCmp_encVar :
    ∀ (a b r₁ r₂ : List Nat),
      lexCmp (encVar a ++ r₁) (encVar b ++ r₂) = (lexCmp a b).then (lexCmp r₁ r₂) := by
  intro a
  induction a with
  | nil =>
    intro b r₁ r₂
    cases b with
    | nil => simp [encVar, escBytes, lexCmp, Ordering.then]
    | cons h t =>
      match h with
      | 0 => simp [encVar, escBytes, escByte, lexCmp, Ordering.then]
      | 1 => simp [encVar, escBytes, escByte, lexCmp, Ordering.then]
      | (n + 2) => simp [encVar, escBytes, escByte, lexCmp, Ordering.then]
  | cons x xs ih =>
    intro b r₁ r₂
    cases b with
    | nil =>
      match x with
      | 0 => simp [encVar, escBytes, escByte, lexCmp, Ordering.then]
      | 1 => simp [encVar, escBytes, escByte, lexCmp, Ordering.then]
      | (n + 2) => simp [encVar, escBytes, escByte, lexCmp, Ordering.then]
    | cons y ys =>
      have step : ∀ z zs, encVar (z :: zs) = escByte z ++ encVar zs := by
        intro z zs; simp [encVar, escBytes]
      rw [step x xs, step y ys]
      by_cases hxy : x = y
      · subst hxy
        have hhd : ∀ (u v : List Nat),
            lexCmp (escByte x ++ u) (escByte x ++ v) = lexCmp u v := by
          intro u v
          match x with
          | 0 => simp [escByte, lexCmp]
          | 1 => simp [escByte, lexCmp]
          | (n + 2) => simp [escByte, lexCmp]
        rw [List.append_assoc, List.append_assoc, hhd]
        rw [ih ys r₁ r₂]
        have : lexCmp (x :: xs) (x :: ys) = lexCmp xs ys := by simp [lexCmp]
        rw [this]
      · have hcons : lexCmp (x :: xs) (y :: ys) = natCmp x y := by
          unfold lexCmp natCmp
          rcases Nat.lt_trichotomy x y with h | h | h
          · simp [h]
          · exact absurd h hxy
          · have : ¬ x < y := by omega
            simp [this, h]
        rw [hcons]
        -- head bytes differ: the verdict is decided inside the escaped heads
        rcases Nat.lt_trichotomy x y with h | h | h
        · have : natCmp x y = .lt := by unfold natCmp; simp [h]
          rw [this]
          match x, y, h with
          | 0, 1, _ => simp [escByte, lexCmp, Ordering.then]
          | 0, (m + 2), _ => simp [escByte, lexCmp, Ordering.then]
          | 1, (m + 2), _ => simp [escByte, lexCmp, Ordering.then]
          | (n + 2), (m + 2), h =>
            have h1 : n + 2 < m + 2 := h
            simp [escByte, lexCmp, h1, Ordering.then]
        · exact absurd h hxy
        · have : natCmp x y = .gt := by
            unfold natCmp
            have : ¬ x < y := by omega
            simp [this, h]
          rw [this]
          match y, x, h with
          | 0, 1, _ => simp [escByte, lexCmp, Ordering.then]
          | 0, (m + 2), _ => simp [escByte, lexCmp, Ordering.then]
          | 1, (m + 2), _ => simp [escByte, lexCmp, Ordering.then]
          | (n + 2), (m + 2), h =>
            have h1 : n + 2 < m + 2 := h
            have h2 : ¬ m + 2 < n + 2 := by omega
            simp [escByte, lexCmp, h1, h2, Ordering.then]

/-! ## Fixed-width big-endian encoding

Modelled from the spec: §4.1 — "Fixed-width unsigned integers: big-endian
encoding of the width's bit-size; this makes unsigned numeric order equal
byte-wise lexicographic order.  `Rev` variants encode the bit-complement
(`max_value - value`)". -/

/-- Big-endian byte string of `n`, exactly `w` bytes wide. -/
def beBytes : Nat → Nat → List Nat
  | 0, _ => []
  | w + 1, n => (n / 256 ^ w) :: beBytes w (n % 256 ^ w)

/-- Read back a big-endian byte string. -/
def beVal : List Nat → Nat
  | [] => 0
  | b :: rest => b * 256 ^ rest.length + beVal rest

theorem beBytes_length : ∀ (w n : Nat), (beBytes w n).length = w := by
  intro w
  induction w with
  | zero => intro n; rfl
  | succ w ih => intro n; simp [beBytes, ih]

theorem beVal_beBytes : ∀ (w n : Nat), n < 256 ^ w → beVal (beBytes w n) = n := by
  intro w
  induction w with
  | zero => intro n h; simp [beBytes, beVal]; omega
  | succ w ih =>
    intro n h
    have hlt : n % 256 ^ w < 256 ^ w := Nat.mod_lt _ (Nat.pos_pow_of_pos w (by norm_num))
    simp [beBytes, beVal, beBytes_length, ih _ hlt]
    have e := Nat.div_add_mod n (256 ^ w)
    rw [Nat.mul_comm] at e
    omega

theorem lexCmp_cons (a b : Nat) (as bs : List Nat) :
    lexCmp (a :: as) (b :: bs) =
      if a < b then .lt else if b < a then .gt else lexCmp as bs := rfl

/-- A strictly smaller quotient forces a strictly smaller dividend. -/
theorem lt_of_div_lt_div {B n m : Nat} (h : n / B < m / B) : n < m := by
  by_contra hcon
  push_neg at hcon
  have h2 : m / B ≤ n / B := Nat.div_le_div_right hcon
  exact absurd h2 (Nat.not_le.mpr h)

/-- Comparing two `w`-wide big-endian fragments followed by arbitrary
rests is numeric comparison tie-broken by the rests. -/
theorem lexCmp_beBytes :
    ∀ (w n m : Nat) (r₁ r₂ : List Nat), n < 256 ^ w → m < 256 ^ w →
      lexCmp (beBytes w n ++ r₁) (beBytes w m ++ r₂) = (natCmp n m).then (lexCmp r₁ r₂) := by
  intro w
  induction w with
  | zero =>
    intro n m r₁ r₂ hn hm
    have hn0 : n = 0 := by simpa using hn
    have hm0 : m = 0 := by simpa using hm
    subst hn0; subst hm0
    simp [beBytes, natCmp, Ordering.then]
  | succ w ih =>
    intro n m r₁ r₂ hn hm
    have hB : 0 < 256 ^ w := Nat.pos_pow_of_pos w (by norm_num)
    have hnr : n % 256 ^ w < 256 ^ w := Nat.mod_lt _ hB
    have hmr : m % 256 ^ w < 256 ^ w := Nat.mod_lt _ hB
    simp only [beBytes, List.cons_append, lexCmp_cons]
    by_cases h1 : n / 256 ^ w < m / 256 ^ w
    · have hlt : n < m := lt_of_div_lt_div h1
      have : natCmp n m = .lt := by unfold natCmp; simp [hlt]
      simp [h1, this, Ordering.then]
    · by_cases h2 : m / 256 ^ w < n / 256 ^ w
      · have hlt : m < n := lt_of_div_lt_div h2
        have : natCmp n m = .gt := by
          unfold natCmp
          have : ¬ n < m := by omega
          simp [this, hlt]
        simp [h1, h2, this, Ordering.then]
      · have hd : n / 256 ^ w = m / 256 ^ w := by omega
        have e1 := Nat.div_add_mod n (256 ^ w)
        have e2 := Nat.div_add_mod m (256 ^ w)
        rw [hd] at e1
        have hcmp : natCmp n m = natCmp (n % 256 ^ w) (m % 256 ^ w) := by
          unfold natCmp
          by_cases ha : n < m
          · have : n % 256 ^ w < m % 256 ^ w := by omega
            simp [ha, this]
          · by_cases hb : m < n
            · have h3 : ¬ n % 256 ^ w < m % 256 ^ w := by omega
              have h4 : m % 256 ^ w < n % 256 ^ w := by omega
              simp [ha, hb, h3, h4]
            · have h3 : ¬ n % 256 ^ w < m % 256 ^ w := by omega
              have h4 : ¬ m % 256 ^ w < n % 256 ^ w := by omega
              simp [ha, hb, h3, h4]
        simp [h1, h2, hcmp, ih _ _ r₁ r₂ hnr hmr]

/-! ## Index kinds, field values, composite codec

Modelled from the spec: §3 "Index (type codec) — a variant over
`U8`,`U16`,`U32`,`U64` (fixed-width unsigned, forward order),
`U8Rev..U64Rev` (same width, order-inverted), `String` (UTF-8 text),
`Bytes` (raw octets), `Serialized` (user-supplied encode/decode pair
producing `Bytes`)."  The `serialized` kind carries its user payload
already serialized to bytes, as the spec states; the user-level
encode/decode pair sits above this layer.  §4.1: composite encoding
concatenates the fragments in declared field order. -/

inductive IndexKind
  | u8 | u16 | u32 | u64
  | u8rev | u16rev | u32rev | u64rev
  | str | bytes | serialized
  deriving DecidableEq, Repr

/-- Byte width of the fixed-width kinds; `none` for variable-length. -/
def IndexKind.width : IndexKind → Option Nat
  | .u8 => some 1
  | .u16 => some 2
  | .u32 => some 4
  | .u64 => some 8
  | .u8rev => some 1
  | .u16rev => some 2
  | .u32rev => some 4
  | .u64rev => some 8
  | .str => none
  | .bytes => none
  | .serialized => none

/-- The order-inverted family. -/
def IndexKind.isRev : IndexKind → Bool
  | .u8rev | .u16rev | .u32rev | .u64rev => true
  | _ => false

/-- A single typed field value: a natural for the unsigned kinds, a byte
string for `String`/`Bytes`/`Serialized` (a `String` value is carried as
its UTF-8 bytes at this layer). -/
inductive FieldVal
  | vnat (n : Nat)
  | vbytes (bs : List Nat)
  deriving DecidableEq, Repr

/-- Which values a kind can represent (spec: "for all representable v").
Unsigned values must fit their width; byte payloads must be real octets. -/
def fieldRep (k : IndexKind) (v : FieldVal) : Prop :=
  match k, v with
  | .str, .vbytes bs => ∀ b ∈ bs, b < 256
  | .bytes, .vbytes bs => ∀ b ∈ bs, b < 256
  | .serialized, .vbytes bs => ∀ b ∈ bs, b < 256
  | k, .vnat n =>
    match k.width with
    | some w => n < 256 ^ w
    | none => False
  | _, _ => False

instance : ∀ k v, Decidable (fieldRep k v) := by
  intro k v
  cases k <;> cases v <;> simp [fieldRep, IndexKind.width] <;> infer_instance

/-- Encoded fragment of one field. -/
def encodeField (k : IndexKind) (v : FieldVal) : List Nat :=
  match k, v with
  | .str, .vbytes bs => encVar bs
  | .bytes, .vbytes bs => encVar bs
  | .serialized, .vbytes bs => encVar bs
  | k, .vnat n =>
    match k.width with
    | some w => if k.isRev then beBytes w (256 ^ w - 1 - n) else beBytes w n
    | none => []
  | _, _ => []

/-- Decode one field from the front of a byte string, returning the value
and the unread rest; `none` on truncated or malformed bytes. -/
def decodeField (k : IndexKind) (bs : List Nat) : Option (FieldVal × List Nat) :=
  match k.width with
  | some w =>
    if w ≤ bs.length then
      let frag := bs.take w
      let n := beVal frag
      if k.isRev then
        if n ≤ 256 ^ w - 1 then some (.vnat (256 ^ w - 1 - n), bs.drop w) else none
      else some (.vnat n, bs.drop w)
    else none
  | none =>
    match unesc bs with
    | some (s, r) => some (.vbytes s, r)
    | none => none

/-- Schema side (the ordered key parts or the ordered value parts): just
the ordered list of kinds; the field names of the source are diagnostic
only (spec §3). -/
abbrev KindList := List IndexKind

/-- A composite tuple is well-typed for a kind list when the arities match
and each field is representable. -/
def wellTyped : KindList → List FieldVal → Prop
  | [], [] => True
  | k :: ks, v :: vs => fieldRep k v ∧ wellTyped ks vs
  | _, _ => False

instance : ∀ ks vs, Decidable (wellTyped ks vs) := by
  intro ks
  induction ks with
  | nil => intro vs; cases vs <;> simp [wellTyped] <;> infer_instance
  | cons k ks ih =>
    intro vs
    cases vs with
    | nil => simp [wellTyped]; infer_instance
    | cons v vs =>
      simp only [wellTyped]
      have := ih vs
      infer_instance

/-- Composite encoding: each part's fragment concatenated in declared
field order (spec §4.1). -/
def encodeFields : KindList → List FieldVal → List Nat
  | [], _ => []
  | _, [] => []
  | k :: ks, v :: vs => encodeField k v ++ encodeFields ks vs

/-- Composite decoding: parse the fields in declared order and require the
bytes to be consumed exactly. -/
def decodeFields : KindList → List Nat → Option (List FieldVal)
  | [], [] => some []
  | [], _ :: _ => none
  | k :: ks, bs =>
    match decodeField k bs with
    | some (v, rest) =>
      match decodeFields ks rest with
      | some vs => some (v :: vs)
      | none => none
    | none => none

theorem take_beBytes_append (w n : Nat) (r : List Nat) :
    (beBytes w n ++ r).take w = beBytes w n := by
  have h := List.take_left (beBytes w n) r
  rwa [beBytes_length] at h

theorem drop_beBytes_append (w n : Nat) (r : List Nat) :
    (beBytes w n ++ r).drop w = r := by
  have h := List.drop_left (beBytes w n) r
  rwa [beBytes_length] at h

/-- One-field round trip, with arbitrary trailing bytes: decoding consumes
exactly the fragment just encoded and recovers the value. -/
theorem decodeField_encodeField (k : IndexKind) (v : FieldVal) (r : List Nat)
    (h : fieldRep k v) : decodeField k (encodeField k v ++ r) = some (v, r) := by
  cases k <;> cases v <;> simp only [fieldRep, IndexKind.width] at h <;>
    first
    | exact absurd h not_false
    | -- variable-length kinds
      (simp [encodeField, decodeField, IndexKind.width, unesc_encVar]; done)
    | -- fixed-width forward kinds
      (simp only [encodeField, decodeField, IndexKind.width, IndexKind.isRev,
        Bool.false_eq_true, if_false, if_true]
       rw [if_pos (by simp [beBytes_length])]
       simp only [take_beBytes_append, drop_beBytes_append]
       rw [beVal_beBytes _ _ h]
       done)
    | -- fixed-width reversed kinds
      (simp only [encodeField, decodeField, IndexKind.width, IndexKind.isRev, if_true]
       rw [if_pos (by simp [beBytes_length])]
       simp only [take_beBytes_append, drop_beBytes_append]
       rw [beVal_beBytes _ _ (by omega)]
       rw [if_pos (by omega)]
       simp only [Option.some.injEq, Prod.mk.injEq, FieldVal.vnat.injEq]
       exact ⟨by omega, trivial⟩)

/-- Composite round trip (spec §8 "Round trip"): decoding the encoding of
a well-typed composite recovers it exactly. -/
theorem decodeFields_encodeFields :
    ∀ (ks : KindList) (vs : List FieldVal), wellTyped ks vs →
      decodeFields ks (encodeFields ks vs) = some vs := by
  intro ks
  induction ks with
  | nil =>
    intro vs h
    cases vs with
    | nil => rfl
    | cons v vs => simp [wellTyped] at h
  | cons k ks ih =>
    intro vs h
    cases vs with
    | nil => simp [wellTyped] at h
    | cons v vs =>
      obtain ⟨h1, h2⟩ := h
      simp only [encodeFields, decodeFields]
      rw [decodeField_encodeField k v _ h1]
      simp [ih vs h2]

/-! ## The byte-sorted store

Modelled from the spec: §1 — the engine is a sorted key-value store over
encoded byte strings with `get`/`set`/`delete` and ordered iteration; §5 —
"all iteration, regardless of insertion order, yields strictly the
byte-order of encoded composite keys".  One keyspace is a list of
`(encoded key, encoded value)` entries kept strictly ascending in
`lexCmp`; iteration is the list itself. -/

/-- One keyspace: encoded entries in ascending byte order of the key. -/
abbrev Store := List (List Nat × List Nat)

/-- Strictly-ascending-by-encoded-key invariant. -/
def StoreSorted (db : Store) : Prop :=
  List.Pairwise (fun a b => lexCmp a.1 b.1 = .lt) db

instance : ∀ db : Store, Decidable (StoreSorted db) := fun db => by
  unfold StoreSorted
  infer_instance

/-- Upsert: insert at the byte-ordered position, replacing an equal key
(spec §4.2 `set` — "upsert; unconditionally overwrites"). -/
def dbSet (db : Store) (k v : List Nat) : Store :=
  match db with
  | [] => [(k, v)]
  | (k0, v0) :: rest =>
    match lexCmp k k0 with
    | .lt => (k, v) :: (k0, v0) :: rest
    | .eq => (k, v) :: rest
    | .gt => (k0, v0) :: dbSet rest k v

/-- Point lookup by encoded key. -/
def dbGet (db : Store) (k : List Nat) : Option (List Nat) :=
  match db with
  | [] => none
  | (k0, v0) :: rest => if k = k0 then some v0 else dbGet rest k

/-- Delete by encoded key.  Modelled from the spec amended by the
repository's tests: the spec's §4.2 says `delete(key) -> bool` reports
"whether a removal occurred", but `test_crud` (tests/test_operations.py)
asserts `db.delete('k1')` truthy twice in a row — the second on a key
already absent — so the binding's delete does not report removal; its
result is the truthy success value whether or not the key was present,
and deleting an absent key is not an error. -/
def dbDelete (db : Store) (k : List Nat) : Store × Bool :=
  match db with
  | [] => ([], true)
  | (k0, v0) :: rest =>
    if k = k0 then (rest, true)
    else ((k0, v0) :: (dbDelete rest k).1, true)

/-- Build a store by a sequence of upserts, in the given order. -/
def buildStore (ops : List (List Nat × List Nat)) : Store :=
  ops.foldl (fun db op => dbSet db op.1 op.2) []

theorem dbSet_mem_key {db : Store} {k v : List Nat} :
    ∀ e ∈ dbSet db k v, e.1 = k ∨ e ∈ db := by
  induction db with
  | nil => intro e he; simp [dbSet] at he; simp [he]
  | cons hd rest ih =>
    intro e he
    obtain ⟨k0, v0⟩ := hd
    simp only [dbSet] at he
    rcases hcmp : lexCmp k k0 with _ | _ | _ <;> rw [hcmp] at he <;>
      simp only [List.mem_cons] at he
    · rcases he with h | h | h
      · left; simp [h]
      · right; simp [h]
      · right; simp [h]
    · rcases he with h | h
      · left; simp [h]
      · right; simp [h]
    · rcases he with h | h
      · right; simp [h]
      · rcases ih e h with h2 | h2
        · left; exact h2
        · right; simp [h2]

/-- Upsert preserves the sort invariant, from any starting point: this is
the "regardless of insertion order" half of the ordering guarantee. -/
theorem dbSet_sorted (db : Store) (k v : List Nat) (h : StoreSorted db) :
    StoreSorted (dbSet db k v) := by
  induction db with
  | nil => simp [dbSet, StoreSorted]
  | cons hd rest ih =>
    obtain ⟨k0, v0⟩ := hd
    rw [StoreSorted, List.pairwise_cons] at h
    obtain ⟨hall, hrest⟩ := h
    simp only [dbSet]
    rcases hcmp : lexCmp k k0 with _ | _ | _
    · rw [StoreSorted, List.pairwise_cons]
      refine ⟨?_, ?_⟩
      · intro e he
        simp only [List.mem_cons] at he
        rcases he with h | h
        · simp [h, hcmp]
        · exact lexCmp_trans_lt _ _ _ hcmp (hall e h)
      · rw [StoreSorted] at *
        exact List.pairwise_cons.mpr ⟨hall, hrest⟩
    · have hk : k = k0 := (lexCmp_eq_iff k k0).mp hcmp
      rw [StoreSorted, List.pairwise_cons]
      exact ⟨fun e he => hk ▸ hall e he, hrest⟩
    · rw [StoreSorted, List.pairwise_cons]
      refine ⟨?_, ih hrest⟩
      intro e he
      rcases dbSet_mem_key e he with h | h
      · rw [h]
        rw [lexCmp_swap] at hcmp
        cases hx : lexCmp k0 k <;> rw [hx] at hcmp <;> simp [Ordering.swap] at hcmp ⊢
      · exact hall e h

/-- Any build order yields a byte-sorted store. -/
theorem buildStore_sorted (ops : List (List Nat × List Nat)) :
    StoreSorted (buildStore ops) := by
  suffices h : ∀ (db : Store), StoreSorted db →
      StoreSorted (ops.foldl (fun db op => dbSet db op.1 op.2) db) by
    exact h [] (by simp [StoreSorted])
  induction ops with
  | nil => intro db h; exact h
  | cons op rest ih =>
    intro db h
    exact ih _ (dbSet_sorted db op.1 op.2 h)

/-- Reading back the key just written. -/
theorem dbGet_dbSet (db : Store) (k v : List Nat) : dbGet (dbSet db k v) k = some v := by
  induction db with
  | nil => simp [dbSet, dbGet]
  | cons hd rest ih =>
    obtain ⟨k0, v0⟩ := hd
    simp only [dbSet]
    rcases hcmp : lexCmp k k0 with _ | _ | _
    · simp [dbGet]
    · simp [dbGet]
    · have : ¬ k = k0 := by
        intro h
        rw [h, lexCmp_self] at hcmp
        exact absurd hcmp (by simp)
      simp [dbGet, this, ih]

/-- A key strictly below every stored key is absent. -/
theorem dbGet_eq_none_of_lt_all (db : Store) (k : List Nat)
    (h : ∀ e ∈ db, lexCmp k e.1 = .lt) : dbGet db k = none := by
  induction db with
  | nil => simp [dbGet]
  | cons hd rest ih =>
    obtain ⟨k0, v0⟩ := hd
    have h1 : lexCmp k k0 = .lt := h (k0, v0) (by simp)
    have hne : ¬ k = k0 := by
      intro he
      rw [he, lexCmp_self] at h1
      exact absurd h1 (by simp)
    simp only [dbGet, if_neg hne]
    exact ih (fun e he => h e (List.mem_cons_of_mem _ he))

/-- A deleted key reads back as absent. -/
theorem dbGet_dbDelete_self (db : Store) (k : List Nat) (h : StoreSorted db) :
    dbGet (dbDelete db k).1 k = none := by
  induction db with
  | nil => simp [dbDelete, dbGet]
  | cons hd rest ih =>
    obtain ⟨k0, v0⟩ := hd
    rw [StoreSorted, List.pairwise_cons] at h
    obtain ⟨hall, hrest⟩ := h
    simp only [dbDelete]
    by_cases hk : k = k0
    · subst hk
      simp only [if_pos rfl]
      exact dbGet_eq_none_of_lt_all rest _ hall
    · simp only [if_neg hk]
      simp only [dbGet, if_neg hk]
      exact ih hrest

/-- Delete always answers the truthy success value, present key or not. -/
theorem dbDelete_flag (db : Store) (k : List Nat) : (dbDelete db k).2 = true := by
  cases db with
  | nil => rfl
  | cons hd rest =>
    obtain ⟨k0, v0⟩ := hd
    by_cases hk : k = k0
    · simp [dbDelete, hk]
    · simp [dbDelete, hk]

/-- Deleting one key leaves every other key's binding unchanged. -/
theorem dbGet_dbDelete_other (db : Store) (k k' : List Nat) (hne : k' ≠ k) :
    dbGet (dbDelete db k).1 k' = dbGet db k' := by
  induction db with
  | nil => simp [dbDelete]
  | cons hd rest ih =>
    obtain ⟨k0, v0⟩ := hd
    by_cases hk : k = k0
    · subst hk
      simp [dbDelete, dbGet, hne]
    · by_cases hk' : k' = k0
      · simp [dbDelete, dbGet, hk, hk']
      · simp only [dbDelete, if_neg hk]
        simp only [dbGet, if_neg hk']
        exact ih

/-! ## Logical tuple order and composite order preservation -/

/-- Logical comparison of two decoded field values, as the host language
compares them: numeric order for unsigned fields, byte-lexicographic order
for string/bytes payloads.  (Mismatched shapes never arise between
well-typed tuples of one schema; the verdict there is arbitrary.) -/
def fieldCmpLog : FieldVal → FieldVal → Ordering
  | .vnat n, .vnat m => natCmp n m
  | .vbytes a, .vbytes b => lexCmp a b
  | .vnat _, .vbytes _ => .lt
  | .vbytes _, .vnat _ => .gt

/-- Standard tuple comparison, field `i` dominating field `i+1`. -/
def tupleCmp : List FieldVal → List FieldVal → Ordering
  | [], [] => .eq
  | [], _ :: _ => .lt
  | _ :: _, [] => .gt
  | v :: vs, u :: us => (fieldCmpLog v u).then (tupleCmp vs us)

theorem ordThen_eq_right (o : Ordering) : o.then .eq = o := by
  cases o <;> rfl

/-- One forward field fragment decides the comparison, the rests breaking
ties: the per-field encodings compose. -/
theorem lexCmp_encodeField_append (k : IndexKind) (v u : FieldVal) (r₁ r₂ : List Nat)
    (hk : k.isRev = false) (hv : fieldRep k v) (hu : fieldRep k u) :
    lexCmp (encodeField k v ++ r₁) (encodeField k u ++ r₂) =
      (fieldCmpLog v u).then (lexCmp r₁ r₂) := by
  cases k <;> cases v <;> cases u <;>
    simp only [fieldRep, IndexKind.width] at hv hu <;>
    first
    | exact absurd hv not_false
    | exact absurd hu not_false
    | exact absurd hk (by decide)
    | -- variable-length kinds
      (simp only [encodeField, fieldCmpLog]
       exact lexCmp_encVar _ _ _ _)
    | -- fixed-width forward kinds
      (simp only [encodeField, IndexKind.width, IndexKind.isRev, Bool.false_eq_true,
        if_false, fieldCmpLog]
       exact lexCmp_beBytes _ _ _ _ _ hv hu)

/-- Composite order preservation for forward schemas (spec §4.1):
byte-wise comparison of two encoded composites equals standard tuple
comparison of the logical values in schema order. -/
theorem lexCmp_encodeFields :
    ∀ (ks : KindList) (vs₁ vs₂ : List FieldVal), wellTyped ks vs₁ → wellTyped ks vs₂ →
      (∀ k ∈ ks, k.isRev = false) →
      lexCmp (encodeFields ks vs₁) (encodeFields ks vs₂) = tupleCmp vs₁ vs₂ := by
  intro ks
  induction ks with
  | nil =>
    intro vs₁ vs₂ h1 h2 _
    cases vs₁ with
    | nil =>
      cases vs₂ with
      | nil => rfl
      | cons u us => simp [wellTyped] at h2
    | cons v vs => simp [wellTyped] at h1
  | cons k ks ih =>
    intro vs₁ vs₂ h1 h2 hf
    cases vs₁ with
    | nil => simp [wellTyped] at h1
    | cons v vs =>
      cases vs₂ with
      | nil => simp [wellTyped] at h2
      | cons u us =>
        obtain ⟨hv, hvs⟩ := h1
        obtain ⟨hu, hus⟩ := h2
        have hk : k.isRev = false := hf k (by simp)
        have hks : ∀ k' ∈ ks, k'.isRev = false := fun k' h => hf k' (by simp [h])
        simp only [encodeFields, tupleCmp]
        rw [lexCmp_encodeField_append k v u _ _ hk hv hu, ih vs us hvs hus hks]

/-! ## The range engine

Modelled from the spec: §4.3's five range-mode rules, with one correction
forced by the repository's tests.  The spec says "All bound comparisons
are on encoded bytes of the composite key", but `test_rev_indexes`
(tests/test_multi_kv1.py) asserts `list(nums[:2]) == []` on a `U16Rev`
keyspace holding 0..99 — under encoded-byte comparison that slice would
hold the 98 entries 99..2.  The test pins the actual behaviour: the scan
walks ascending byte order from the beginning and stops at the first entry
whose decoded key is logically greater than `stop`.  For forward schemas
the two readings coincide (proved below).  The `start` bound positions the
scan in encoded byte space (`nums[2:] == [2, 1, 0]`, same test, matches).
Both-bounds direction inference (rules 1–2) follows the spec's byte-wise
wording, which agrees with every string-schema test. -/

/-- Byte-wise `≤` as a Boolean. -/
def lexLe (a b : List Nat) : Bool :=
  match lexCmp a b with
  | .gt => false
  | _ => true

/-- The stop-bound test of a stop-only slice: decode the stored key and
compare it logically against the bound, as the binding's cursor loop does
with the decoded host-language values. -/
def keyLeStop (sch : KindList) (stop : List FieldVal) (ek : List Nat) : Bool :=
  match decodeFields sch ek with
  | some vs =>
    match tupleCmp vs stop with
    | .gt => false
    | _ => true
  | none => false

/-- Range-mode query over one keyspace (the semantics of
`db[start:stop:reverse]` and `get_range`), per spec §4.3 rules 1–5 with
the test-pinned stop-only bound comparison. -/
def getRange (sch : KindList) (db : Store) (start stop : Option (List FieldVal))
    (rev : Bool) : Store :=
  match start, stop with
  | some a, some b =>
    let ea := encodeFields sch a
    let eb := encodeFields sch b
    match lexCmp eb ea with
    | .lt => (db.filter (fun e => lexLe eb e.1 && lexLe e.1 ea)).reverse
    | _ =>
      let r := db.filter (fun e => lexLe ea e.1 && lexLe e.1 eb)
      if rev then r.reverse else r
  | some a, none =>
    let ea := encodeFields sch a
    let r := db.filter (fun e => lexLe ea e.1)
    if rev then r.reverse else r
  | none, some b =>
    let r := db.takeWhile (fun e => keyLeStop sch b e.1)
    if rev then r.reverse else r
  | none, none => if rev then db.reverse else db

/-- `takeWhile` and `filter` agree on a sorted list when the predicate is
closed downward along the order. -/
theorem takeWhile_eq_filter_of_sorted {α : Type} (R : α → α → Prop) (p : α → Bool) :
    ∀ (l : List α), List.Pairwise R l →
      (∀ a b, R a b → p b = true → p a = true) →
      l.takeWhile p = l.filter p := by
  intro l
  induction l with
  | nil => intro _ _; rfl
  | cons x xs ih =>
    intro hs hdc
    rw [List.pairwise_cons] at hs
    obtain ⟨hall, hrest⟩ := hs
    by_cases hx : p x = true
    · simp only [List.takeWhile_cons, List.filter_cons, hx, if_true]
      rw [ih hrest hdc]
    · have hx' : p x = false := by
        cases h : p x
        · rfl
        · exact absurd h hx
      simp only [List.takeWhile_cons, List.filter_cons, hx']
      have : xs.filter p = [] := by
        rw [List.filter_eq_nil_iff]
        intro e he
        intro hpe
        exact absurd (hdc x e (hall e he) hpe) hx
      rw [this]
      simp

/-! ## Transactions and the environment

Modelled from the spec: §3/§4.4's transaction record (state machine,
per-database write buffer, optimistic conflict detection at commit) and
§3's environment lifecycle, with two corrections forced by the
repository's tests:

* `test_transaction_conflict` shows that a commit racing an overlapping
  still-active transaction does **not** block until the other resolves —
  it fails immediately (the test raises `SophiaError` while the first
  transaction is still open, and the comment reads "txn is not finished,
  waiting for concurrent txn to finish"); only a *later* commit attempt,
  after the competitor committed, fails with the conflict verdict ("txn2
  was rolled back by another concurrent txn").
* `test_rollback` and `test_multiple_db_txn` show that `rollback()`
  re-begins the transaction (writes issued after the rollback are applied
  by the closing commit), so a rollback is not a terminal transition.

Databases are numbered; a buffered write is `(database, encoded key,
some encoded value | none)` with `none` a buffered delete.  `beginSeq` /
`commitSeq` are drawn from the environment's logical clock; a commit
conflicts when an overlapping writer committed after this transaction
began, and is told to wait (`lockBusy`) while an overlapping writer that
began earlier is still active. -/

inductive TxnState
  | active | committed | rolledBack | conflicted
  deriving DecidableEq, Repr

/-- Errors surfaced by the transaction layer (all `SophiaError`s at the
Python surface; spec §7 distinguishes conflict and invalid-state). -/
inductive TxErr
  | lockBusy | conflict | invalidState
  deriving DecidableEq, Repr

/-- A buffered write: database, encoded key, upsert payload or delete. -/
abbrev TxnWrite := Nat × List Nat × Option (List Nat)

structure TxnRec where
  writes : List TxnWrite
  state : TxnState
  beginSeq : Nat
  commitSeq : Nat
  deriving DecidableEq, Repr

structure Env where
  stores : Nat → Store
  txns : Nat → TxnRec
  txnCount : Nat
  clock : Nat
  status : Bool

/-- Start a transaction: a fresh active record stamped with the clock. -/
def txnBegin (e : Env) : Env × Nat :=
  ({ e with
     txns := fun j => if j = e.txnCount then ⟨[], .active, e.clock, 0⟩ else e.txns j,
     txnCount := e.txnCount + 1,
     clock := e.clock + 1 }, e.txnCount)

/-- Buffer one write inside a transaction; only active transactions accept
writes. -/
def txnSet (e : Env) (i d : Nat) (k : List Nat) (v : Option (List Nat)) :
    Env × Option TxErr :=
  if (e.txns i).state = .active then
    ({ e with
       txns := fun j =>
         if j = i then { e.txns i with writes := (e.txns i).writes ++ [(d, k, v)] }
         else e.txns j }, none)
  else (e, some .invalidState)

/-- Buffer a list of upserts into one database of a transaction. -/
def txnSetMany (e : Env) (i d : Nat) (ws : List (List Nat × List Nat)) : Env :=
  ws.foldl (fun acc w => (txnSet acc i d w.1 (some w.2)).1) e

/-- Last buffered write of a transaction for a `(database, key)` pair. -/
def lookupWrite : List TxnWrite → Nat → List Nat → Option (Option (List Nat))
  | [], _, _ => none
  | (d0, k0, v0) :: rest, d, k =>
    match lookupWrite rest d k with
    | some r => some r
    | none => if d = d0 ∧ k = k0 then some v0 else none

/-- Read inside a transaction: own uncommitted writes overlaid on the
committed state (spec §4.4). -/
def txnGet (e : Env) (i d : Nat) (k : List Nat) : Option (List Nat) :=
  match lookupWrite (e.txns i).writes d k with
  | some r => r
  | none => dbGet (e.stores d) k

/-- Two write buffers touch a common `(database, key)`. -/
def overlaps (ws₁ ws₂ : List TxnWrite) : Bool :=
  ws₁.any (fun w₁ => ws₂.any (fun w₂ => decide (w₁.1 = w₂.1 ∧ w₁.2.1 = w₂.2.1)))

/-- Apply one buffered write to the committed stores. -/
def applyWrite (ss : Nat → Store) (w : TxnWrite) : Nat → Store :=
  fun d =>
    if d = w.1 then
      match w.2.2 with
      | some v => dbSet (ss w.1) w.2.1 v
      | none => (dbDelete (ss w.1) w.2.1).1
    else ss d

/-- Apply a whole write buffer, in buffer order. -/
def applyWrites (ss : Nat → Store) (ws : List TxnWrite) : Nat → Store :=
  ws.foldl applyWrite ss

/-- An overlapping, earlier-begun, still-active competitor: the engine
answers "wait" rather than deciding the race now. -/
def lockBlocker (e : Env) (i : Nat) : Bool :=
  (List.range e.txnCount).any (fun j =>
    decide (j ≠ i) && decide ((e.txns j).state = .active) &&
    decide ((e.txns j).beginSeq < (e.txns i).beginSeq) &&
    overlaps (e.txns i).writes (e.txns j).writes)

/-- An overlapping competitor that committed after this transaction began:
the optimistic validation fails. -/
def conflictBlocker (e : Env) (i : Nat) : Bool :=
  (List.range e.txnCount).any (fun j =>
    decide (j ≠ i) && decide ((e.txns j).state = .committed) &&
    decide ((e.txns i).beginSeq < (e.txns j).commitSeq) &&
    overlaps (e.txns i).writes (e.txns j).writes)

/-- Commit: invalid on a non-active transaction; "busy" (transaction left
active) while an earlier overlapping writer is still open; conflict
(transaction becomes `conflicted`, nothing applied) when an overlapping
writer committed since begin; otherwise all buffered writes are applied
as a unit. -/
def txnCommit (e : Env) (i : Nat) : Env × Option TxErr :=
  if (e.txns i).state = .active then
    if lockBlocker e i then (e, some .lockBusy)
    else if conflictBlocker e i then
      ({ e with
         txns := fun j => if j = i then { e.txns i with state := .conflicted } else e.txns j },
       some .conflict)
    else
      ({ e with
         stores := applyWrites e.stores (e.txns i).writes,
         txns := fun j =>
           if j = i then { e.txns i with state := .committed, commitSeq := e.clock }
           else e.txns j,
         clock := e.clock + 1 }, none)
  else (e, some .invalidState)

/-- Rollback: discards the write buffer and re-begins the transaction
(the binding's `rollback(begin=True)` default, pinned by `test_rollback`:
writes issued after a rollback are applied by the closing commit).
Invalid on a non-active transaction. -/
def txnRollback (e : Env) (i : Nat) : Env × Option TxErr :=
  if (e.txns i).state = .active then
    ({ e with
       txns := fun j =>
         if j = i then { e.txns i with writes := [], beginSeq := e.clock }
         else e.txns j }, none)
  else (e, some .invalidState)

/-! ### Environment lifecycle (spec §3: `status: {closed, open}`,
`open()`/`close()` return whether a transition happened; committed
contents are owned by the engine and survive the cycle). -/

/-- Close the environment; reports whether it was open. -/
def envClose (e : Env) : Bool × Env :=
  if e.status then (true, { e with status := false }) else (false, e)

/-- Open the environment; reports whether it was closed. -/
def envOpen (e : Env) : Bool × Env :=
  if e.status then (false, e) else (true, { e with status := true })

/-- Non-transactional upsert through an open environment. -/
def envSet (e : Env) (d : Nat) (k v : List Nat) : Env :=
  if e.status then { e with stores := fun d' => if d' = d then dbSet (e.stores d) k v else e.stores d' }
  else e

/-- Non-transactional read through an open environment. -/
def envGet (e : Env) (d : Nat) (k : List Nat) : Option (List Nat) :=
  if e.status then dbGet (e.stores d) k else none

/-! ## UTF-8 at the string boundary

Modelled from the spec: §3/§4.1 — `String` values are "UTF-8 text",
encoded as their UTF-8 bytes.  The binding accepts either a host `str`
(encoded to UTF-8 first) or ready-made `bytes` for a `StringIndex` key;
`test_string_encoding` reads back through the bytes form what was written
through the str form.  Code points are `Nat`s; a valid scalar value is
below 0x110000 and not a surrogate. -/

/-- UTF-8 bytes of one Unicode scalar value. -/
def utf8EncodeChar (c : Nat) : List Nat :=
  if c < 0x80 then [c]
  else if c < 0x800 then [0xC0 + c / 64, 0x80 + c % 64]
  else if c < 0x10000 then [0xE0 + c / 4096, 0x80 + c / 64 % 64, 0x80 + c % 64]
  else [0xF0 + c / 262144, 0x80 + c / 4096 % 64, 0x80 + c / 64 % 64, 0x80 + c % 64]

/-- UTF-8 bytes of a code-point sequence. -/
def utf8Encode : List Nat → List Nat
  | [] => []
  | c :: cs => utf8EncodeChar c ++ utf8Encode cs

/-- A Unicode scalar value (encodable code point). -/
def validScalar (c : Nat) : Prop :=
  c < 0x110000 ∧ ¬ (0xD800 ≤ c ∧ c ≤ 0xDFFF)

instance : ∀ c, Decidable (validScalar c) := fun _ => by
  unfold validScalar; infer_instance

/-- Continuation-byte check. -/
def isCont (c : Nat) : Prop := 0x80 ≤ c ∧ c < 0xC0

instance : ∀ c, Decidable (isCont c) := fun _ => by
  unfold isCont; infer_instance

/-- Finish a two-byte sequence headed by `b`. -/
def utf8Cont2 (b : Nat) : List Nat → Option (Nat × List Nat)
  | c1 :: r =>
    if isCont c1 then
      let cp := (b - 0xC0) * 64 + (c1 - 0x80)
      if 0x80 ≤ cp then some (cp, r) else none
    else none
  | [] => none

/-- Finish a three-byte sequence headed by `b`. -/
def utf8Cont3 (b : Nat) : List Nat → Option (Nat × List Nat)
  | c1 :: c2 :: r =>
    if isCont c1 ∧ isCont c2 then
      let cp := (b - 0xE0) * 4096 + (c1 - 0x80) * 64 + (c2 - 0x80)
      if 0x800 ≤ cp ∧ ¬ (0xD800 ≤ cp ∧ cp ≤ 0xDFFF) then some (cp, r) else none
    else none
  | _ => none

/-- Finish a four-byte sequence headed by `b`. -/
def utf8Cont4 (b : Nat) : List Nat → Option (Nat × List Nat)
  | c1 :: c2 :: c3 :: r =>
    if isCont c1 ∧ isCont c2 ∧ isCont c3 then
      let cp := (b - 0xF0) * 262144 + (c1 - 0x80) * 4096 + (c2 - 0x80) * 64 + (c3 - 0x80)
      if 0x10000 ≤ cp ∧ cp < 0x110000 then some (cp, r) else none
    else none
  | _ => none

/-- Decode one UTF-8-encoded scalar from the front of a byte sequence,
returning it and the unread rest; `none` on malformed input (truncation,
bad continuation, overlong form, surrogate, or out of range). -/
def utf8DecodeChar : List Nat → Option (Nat × List Nat)
  | [] => none
  | b :: rest =>
    if b < 0x80 then some (b, rest)
    else if b < 0xC0 then none
    else if b < 0xE0 then utf8Cont2 b rest
    else if b < 0xF0 then utf8Cont3 b rest
    else if b < 0xF8 then utf8Cont4 b rest
    else none

theorem utf8Cont2_shrinks (b : Nat) :
    ∀ (rest : List Nat) (c : Nat) (r : List Nat),
      utf8Cont2 b rest = some (c, r) → r.length < rest.length := by
  intro rest c r h
  match rest with
  | [] => simp [utf8Cont2] at h
  | c1 :: r1 =>
    simp only [utf8Cont2] at h
    split at h
    · split at h
      · have hr : r1 = r := congrArg Prod.snd (Option.some.inj h)
        subst hr
        simp
      · exact absurd h (by simp)
    · exact absurd h (by simp)

theorem utf8Cont3_shrinks (b : Nat) :
    ∀ (rest : List Nat) (c : Nat) (r : List Nat),
      utf8Cont3 b rest = some (c, r) → r.length < rest.length := by
  intro rest c r h
  match rest with
  | [] => simp [utf8Cont3] at h
  | [c1] => simp [utf8Cont3] at h
  | c1 :: c2 :: r2 =>
    simp only [utf8Cont3] at h
    split at h
    · split at h
      · have hr : r2 = r := congrArg Prod.snd (Option.some.inj h)
        subst hr
        simp
        omega
      · exact absurd h (by simp)
    · exact absurd h (by simp)

theorem utf8Cont4_shrinks (b : Nat) :
    ∀ (rest : List Nat) (c : Nat) (r : List Nat),
      utf8Cont4 b rest = some (c, r) → r.length < rest.length := by
  intro rest c r h
  match rest with
  | [] => simp [utf8Cont4] at h
  | [c1] => simp [utf8Cont4] at h
  | [c1, c2] => simp [utf8Cont4] at h
  | c1 :: c2 :: c3 :: r3 =>
    simp only [utf8Cont4] at h
    split at h
    · split at h
      · have hr : r3 = r := congrArg Prod.snd (Option.some.inj h)
        subst hr
        simp
        omega
      · exact absurd h (by simp)
    · exact absurd h (by simp)

theorem utf8DecodeChar_shrinks :
    ∀ (bs : List Nat) (c : Nat) (r : List Nat),
      utf8DecodeChar bs = some (c, r) → r.length < bs.length := by
  intro bs c r h
  match bs with
  | [] => simp [utf8DecodeChar] at h
  | b :: rest =>
    simp only [utf8DecodeChar] at h
    split at h
    · cases h; simp
    · split at h
      · exact absurd h (by simp)
      · split at h
        · have := utf8Cont2_shrinks b rest c r h
          simp; omega
        · split at h
          · have := utf8Cont3_shrinks b rest c r h
            simp; omega
          · split at h
            · have := utf8Cont4_shrinks b rest c r h
              simp; omega
            · exact absurd h (by simp)

/-- Decode a UTF-8 byte sequence back to code points; `none` anywhere the
front is malformed. -/
def utf8Decode (bs : List Nat) : Option (List Nat) :=
  match hbs : utf8DecodeChar bs with
  | some (c, r) =>
    have : r.length < bs.length := utf8DecodeChar_shrinks bs c r hbs
    (utf8Decode r).map (c :: ·)
  | none => if bs.isEmpty then some [] else none
  termination_by bs.length

theorem utf8Decode_of_decodeChar (bs : List Nat) (c : Nat) (r : List Nat)
    (h : utf8DecodeChar bs = some (c, r)) :
    utf8Decode bs = (utf8Decode r).map (c :: ·) := by
  rw [utf8Decode]
  split
  · rename_i c' r' h'
    rw [h] at h'
    cases h'
    rfl
  · rename_i h'
    rw [h] at h'
    cases h'

/-- Decoding one encoded scalar consumes exactly its bytes. -/
theorem utf8DecodeChar_encodeChar (c : Nat) (r : List Nat) (h : validScalar c) :
    utf8DecodeChar (utf8EncodeChar c ++ r) = some (c, r) := by
  obtain ⟨hlt, hsur⟩ := h
  by_cases h1 : c < 0x80
  · simp only [utf8EncodeChar, if_pos h1, List.cons_append, List.nil_append]
    rw [utf8DecodeChar]
    rw [if_pos h1]
  · by_cases h2 : c < 0x800
    · simp only [utf8EncodeChar, if_neg h1, if_pos h2, List.cons_append, List.nil_append]
      rw [utf8DecodeChar]
      rw [if_neg (by omega), if_neg (by omega), if_pos (by omega)]
      rw [utf8Cont2]
      rw [if_pos (by unfold isCont; constructor <;> omega)]
      simp only
      rw [if_pos (by omega)]
      have hc : (0xC0 + c / 64 - 0xC0) * 64 + (0x80 + c % 64 - 0x80) = c := by omega
      rw [hc]
    · by_cases h3 : c < 0x10000
      · simp only [utf8EncodeChar, if_neg h1, if_neg h2, if_pos h3, List.cons_append,
          List.nil_append]
        rw [utf8DecodeChar]
        rw [if_neg (by omega), if_neg (by omega), if_neg (by omega), if_pos (by omega)]
        rw [utf8Cont3]
        rw [if_pos (by unfold isCont; refine ⟨⟨?_, ?_⟩, ?_, ?_⟩ <;> omega)]
        simp only
        have hc : (0xE0 + c / 4096 - 0xE0) * 4096 + (0x80 + c / 64 % 64 - 0x80) * 64 +
            (0x80 + c % 64 - 0x80) = c := by omega
        rw [hc]
        rw [if_pos (by constructor <;> omega)]
      · simp only [utf8EncodeChar, if_neg h1, if_neg h2, if_neg h3, List.cons_append,
          List.nil_append]
        rw [utf8DecodeChar]
        rw [if_neg (by omega), if_neg (by omega), if_neg (by omega), if_neg (by omega),
          if_pos (by omega)]
        rw [utf8Cont4]
        rw [if_pos (by unfold isCont; refine ⟨⟨?_, ?_⟩, ⟨?_, ?_⟩, ?_, ?_⟩ <;> omega)]
        simp only
        have hc : (0xF0 + c / 262144 - 0xF0) * 262144 + (0x80 + c / 4096 % 64 - 0x80) * 4096 +
            (0x80 + c / 64 % 64 - 0x80) * 64 + (0x80 + c % 64 - 0x80) = c := by omega
        rw [hc]
        rw [if_pos (by constructor <;> omega)]

theorem utf8Decode_nil : utf8Decode [] = some [] := by
  rw [utf8Decode]
  simp [utf8DecodeChar]

/-- UTF-8 round trip on valid scalar sequences. -/
theorem utf8Decode_utf8Encode :
    ∀ (cs : List Nat), (∀ c ∈ cs, validScalar c) → utf8Decode (utf8Encode cs) = some cs := by
  intro cs
  induction cs with
  | nil => intro _; exact utf8Decode_nil
  | cons c cs ih =>
    intro h
    simp only [utf8Encode]
    rw [utf8Decode_of_decodeChar _ c (utf8Encode cs)
      (utf8DecodeChar_encodeChar c _ (h c (by simp)))]
    rw [ih (fun c' hc' => h c' (List.mem_cons_of_mem _ hc'))]
    rfl

/-- UTF-8 output is made of real octets. -/
theorem utf8EncodeChar_lt256 (c : Nat) (h : c < 0x110000) :
    ∀ b ∈ utf8EncodeChar c, b < 256 := by
  intro b hb
  unfold utf8EncodeChar at hb
  split at hb
  · simp at hb; omega
  · split at hb
    · simp at hb
      rcases hb with h1 | h1 <;> omega
    · split at hb
      · simp at hb
        rcases hb with h1 | h1 | h1 <;> omega
      · simp at hb
        rcases hb with h1 | h1 | h1 | h1 <;> omega

theorem utf8Encode_lt256 :
    ∀ (cs : List Nat), (∀ c ∈ cs, c < 0x110000) → ∀ b ∈ utf8Encode cs, b < 256 := by
  intro cs
  induction cs with
  | nil => intro _ b hb; simp [utf8Encode] at hb
  | cons c cs ih =>
    intro h b hb
    simp only [utf8Encode, List.mem_append] at hb
    rcases hb with hb | hb
    · exact utf8EncodeChar_lt256 c (h c (by simp)) b hb
    · exact ih (fun c' hc' => h c' (List.mem_cons_of_mem _ hc')) b hb

/-! ## The string-database boundary

Modelled from the spec and `test_string_encoding`: a database declared
`Schema([StringIndex(key)], [StringIndex(value)])` accepts either a host
`str` (stored as its UTF-8 bytes) or ready-made `bytes` for a key, and
values read back as `str` (decoded from UTF-8). -/

/-- A host-language key/value at the `StringIndex` boundary. -/
inductive PyVal
  | pstr (cps : List Nat)
  | pbytes (bs : List Nat)
  deriving DecidableEq, Repr

/-- The byte payload a `StringIndex` stores for a host value. -/
def stringPayload : PyVal → List Nat
  | .pstr cps => utf8Encode cps
  | .pbytes bs => bs

/-- Encoded composite key of the single-`StringIndex` key schema. -/
def strKeyEnc (v : PyVal) : List Nat :=
  encodeFields [.str] [.vbytes (stringPayload v)]

/-- `db[key] = value` on the string database. -/
def sdbSet (db : Store) (k v : PyVal) : Store :=
  dbSet db (strKeyEnc k) (strKeyEnc v)

/-- `db[key]` on the string database, decoding the value back to host
text (code points). -/
def sdbGet (db : Store) (k : PyVal) : Option (List Nat) :=
  match dbGet db (strKeyEnc k) with
  | some ev =>
    match decodeFields [.str] ev with
    | some [.vbytes bs] => utf8Decode bs
    | _ => none
  | none => none

/-! ## Concrete fixtures from the repository's tests -/

/-- `Schema([StringIndex('key')], [StringIndex('value')])`. -/
def strSchema : KindList := [.str]

/-- The four `'k0'..'k3' -> 'v0'..'v3'` pairs of `test_get_range`, in
insertion order, encoded. -/
def strOps : List (List Nat × List Nat) :=
  [ (encodeFields strSchema [.vbytes [107, 48]], encodeFields strSchema [.vbytes [118, 48]]),
    (encodeFields strSchema [.vbytes [107, 49]], encodeFields strSchema [.vbytes [118, 49]]),
    (encodeFields strSchema [.vbytes [107, 50]], encodeFields strSchema [.vbytes [118, 50]]),
    (encodeFields strSchema [.vbytes [107, 51]], encodeFields strSchema [.vbytes [118, 51]]) ]

/-- The string test database. -/
def strDb : Store := buildStore strOps

/-- `Schema([U64Index('year'), U32Index('month'), U16Index('day'),
StringIndex('event')], ...)` of the multi-key tests. -/
def mkKeySchema : KindList := [.u64, .u32, .u16, .str]

/-- Value schema `[StringIndex('source'), StringIndex('data')]`. -/
def mkValSchema : KindList := [.str, .str]

/-- `test_data` of `test_multi_kv1` / `tests.py`, in its written (unsorted)
order: `(year, month, day, event) -> (source, data)`. -/
def mkData : List (List FieldVal × List FieldVal) :=
  [ ([.vnat 2017, .vnat 1, .vnat 1, .vbytes [104, 111, 108, 105, 100, 97, 121]],
     [.vbytes [117, 115], .vbytes [110, 101, 119, 32, 121, 101, 97, 114, 115]]),
    ([.vnat 2017, .vnat 5, .vnat 29, .vbytes [104, 111, 108, 105, 100, 97, 121]],
     [.vbytes [117, 115], .vbytes [109, 101, 109, 111, 114, 105, 97, 108, 32, 100, 97, 121]]),
    ([.vnat 2017, .vnat 7, .vnat 4, .vbytes [104, 111, 108, 105, 100, 97, 121]],
     [.vbytes [117, 115],
      .vbytes [105, 110, 100, 101, 112, 101, 110, 100, 101, 110, 99, 101, 32, 100, 97, 121]]),
    ([.vnat 2017, .vnat 9, .vnat 4, .vbytes [104, 111, 108, 105, 100, 97, 121]],
     [.vbytes [117, 115], .vbytes [108, 97, 98, 111, 114, 32, 100, 97, 121]]),
    ([.vnat 2017, .vnat 11, .vnat 23, .vbytes [104, 111, 108, 105, 100, 97, 121]],
     [.vbytes [117, 115], .vbytes [116, 104, 97, 110, 107, 115, 103, 105, 118, 105, 110, 103]]),
    ([.vnat 2017, .vnat 12, .vnat 25, .vbytes [104, 111, 108, 105, 100, 97, 121]],
     [.vbytes [117, 115], .vbytes [99, 104, 114, 105, 115, 116, 109, 97, 115]]),
    ([.vnat 2017, .vnat 7, .vnat 1, .vbytes [98, 105, 114, 116, 104, 100, 97, 121]],
     [.vbytes [112, 114, 105, 118, 97, 116, 101], .vbytes [104, 117, 101, 121]]),
    ([.vnat 2017, .vnat 5, .vnat 1, .vbytes [98, 105, 114, 116, 104, 100, 97, 121]],
     [.vbytes [112, 114, 105, 118, 97, 116, 101], .vbytes [109, 105, 99, 107, 101, 121]]) ]

/-- The same eight pairs, sorted by standard tuple comparison — the order
`sorted(test_data)` of the tests. -/
def mkDataSorted : List (List FieldVal × List FieldVal) :=
  [ mkData.get! 0, mkData.get! 7, mkData.get! 1, mkData.get! 6,
    mkData.get! 2, mkData.get! 3, mkData.get! 4, mkData.get! 5 ]

/-- The multi-key database, built in the test's insertion order. -/
def mkDb : Store :=
  buildStore (mkData.map (fun p =>
    (encodeFields mkKeySchema p.1, encodeFields mkValSchema p.2)))

/-- `Schema([U16RevIndex('key')], [U16Index x4, U8Index])` of the
`numbers` database. -/
def numsKeySchema : KindList := [.u16rev]

def numsValSchema : KindList := [.u16, .u16, .u16, .u16, .u8]

/-- Keys 0..99 inserted ascending, values `(i+1, .., i+5)` as in
`test_rev_indexes`. -/
def numsOps : List (List Nat × List Nat) :=
  (List.range 100).map (fun i =>
    (encodeFields numsKeySchema [.vnat i],
     encodeFields numsValSchema
       [.vnat (i + 1), .vnat (i + 2), .vnat (i + 3), .vnat (i + 4), .vnat (i + 5)]))

/-- The `numbers` database. -/
def numsDb : Store := buildStore numsOps

/-! ## The two-transaction conflict scenario

The setting of `test_transaction_conflict` (and spec §8): both
transactions begin from the same committed state; the first buffers its
writes before the second does; their write sets overlap on at least one
key. -/

/-- Upserts of one database, as transaction write-buffer entries. -/
def wmap (d : Nat) (ws : List (List Nat × List Nat)) : List TxnWrite :=
  ws.map (fun w => (d, w.1, some w.2))

/-- Key overlap of two upsert lists. -/
def keysOverlap (a b : List (List Nat × List Nat)) : Bool :=
  a.any (fun x => b.any (fun y => decide (x.1 = y.1)))

theorem overlaps_wmap (d : Nat) (a b : List (List Nat × List Nat)) :
    overlaps (wmap d a) (wmap d b) = keysOverlap a b := by
  rw [Bool.eq_iff_iff]
  simp only [overlaps, wmap, keysOverlap, List.any_eq_true, List.mem_map]
  constructor
  · rintro ⟨w1, ⟨x, hx, rfl⟩, w2, ⟨y, hy, rfl⟩, hcond⟩
    simp only [Bool.and_eq_true, decide_eq_true_eq] at hcond
    exact ⟨x, hx, y, hy, by simp [hcond]⟩
  · rintro ⟨x, hx, y, hy, hcond⟩
    simp only [decide_eq_true_eq] at hcond
    exact ⟨(d, x.1, some x.2), ⟨x, hx, rfl⟩, (d, y.1, some y.2), ⟨y, hy, rfl⟩, by simp [hcond]⟩

theorem txnSetMany_spec :
    ∀ (ws : List (List Nat × List Nat)) (e : Env) (i d : Nat),
      (e.txns i).state = .active →
      (txnSetMany e i d ws).txns i =
          { e.txns i with writes := (e.txns i).writes ++ wmap d ws } ∧
        (∀ j, j ≠ i → (txnSetMany e i d ws).txns j = e.txns j) ∧
        (txnSetMany e i d ws).stores = e.stores ∧
        (txnSetMany e i d ws).clock = e.clock ∧
        (txnSetMany e i d ws).txnCount = e.txnCount ∧
        (txnSetMany e i d ws).status = e.status := by
  intro ws
  induction ws with
  | nil =>
    intro e i d h
    refine ⟨?_, fun j _ => rfl, rfl, rfl, rfl, rfl⟩
    simp [txnSetMany, wmap]
  | cons w ws ih =>
    intro e i d h
    have hstep : txnSetMany e i d (w :: ws) =
        txnSetMany (txnSet e i d w.1 (some w.2)).1 i d ws := by
      simp [txnSetMany]
    set e' := (txnSet e i d w.1 (some w.2)).1 with he'
    have he'txns : e'.txns i = { e.txns i with writes := (e.txns i).writes ++ [(d, w.1, some w.2)] } ∧
        (∀ j, j ≠ i → e'.txns j = e.txns j) ∧ e'.stores = e.stores ∧ e'.clock = e.clock ∧
        e'.txnCount = e.txnCount ∧ e'.status = e.status := by
      rw [he']
      unfold txnSet
      rw [if_pos h]
      refine ⟨by simp, fun j hj => by simp [hj], rfl, rfl, rfl, rfl⟩
    obtain ⟨ht, hoth, hst, hcl, hcnt, hstat⟩ := he'txns
    have hact : (e'.txns i).state = .active := by rw [ht]; exact h
    obtain ⟨ih1, ih2, ih3, ih4, ih5, ih6⟩ := ih e' i d hact
    rw [hstep]
    refine ⟨?_, ?_, ?_, ?_, ?_, ?_⟩
    · rw [ih1, ht]
      simp [wmap, List.append_assoc]
    · intro j hj
      rw [ih2 j hj, hoth j hj]
    · rw [ih3, hst]
    · rw [ih4, hcl]
    · rw [ih5, hcnt]
    · rw [ih6, hstat]

theorem applyWrites_wmap :
    ∀ (ws : List (List Nat × List Nat)) (ss : Nat → Store) (d : Nat),
      applyWrites ss (wmap d ws) d = ws.foldl (fun s w => dbSet s w.1 w.2) (ss d) := by
  intro ws
  induction ws with
  | nil => intro ss d; rfl
  | cons w ws ih =>
    intro ss d
    have hstep : applyWrites ss (wmap d (w :: ws)) =
        applyWrites (applyWrite ss (d, w.1, some w.2)) (wmap d ws) := by
      simp [applyWrites, wmap]
    rw [hstep, ih]
    simp [applyWrite]

/-- The environment after: an open single-database environment holding
`base`, two transactions begun in order, the first buffering `w1` then the
second buffering `w2`. -/
def conflictScenario (base : Store) (w1 w2 : List (List Nat × List Nat)) : Env :=
  let e0 : Env :=
    { stores := fun d => if d = 0 then base else [],
      txns := fun _ => ⟨[], .rolledBack, 0, 0⟩,
      txnCount := 0, clock := 0, status := true }
  let e1 := (txnBegin e0).1
  let e2 := (txnBegin e1).1
  let e3 := txnSetMany e2 0 0 w1
  txnSetMany e3 1 0 w2

/-- The scenario environment, computed field by field. -/
theorem conflictScenario_spec (base : Store) (w1 w2 : List (List Nat × List Nat)) :
    (conflictScenario base w1 w2).txns 0 = ⟨wmap 0 w1, .active, 0, 0⟩ ∧
    (conflictScenario base w1 w2).txns 1 = ⟨wmap 0 w2, .active, 1, 0⟩ ∧
    (conflictScenario base w1 w2).stores = (fun d => if d = 0 then base else []) ∧
    (conflictScenario base w1 w2).txnCount = 2 ∧
    (conflictScenario base w1 w2).clock = 2 ∧
    (conflictScenario base w1 w2).status = true := by
  unfold conflictScenario
  simp only
  set e0 : Env :=
    { stores := fun d => if d = 0 then base else [],
      txns := fun _ => ⟨[], .rolledBack, 0, 0⟩,
      txnCount := 0, clock := 0, status := true } with he0
  set e2 := (txnBegin (txnBegin e0).1).1 with he2
  have h2 : e2.txns 0 = ⟨[], .active, 0, 0⟩ ∧ e2.txns 1 = ⟨[], .active, 1, 0⟩ ∧
      e2.stores = e0.stores ∧ e2.txnCount = 2 ∧ e2.clock = 2 ∧ e2.status = true := by
    rw [he2, he0]
    unfold txnBegin
    refine ⟨rfl, rfl, rfl, rfl, rfl, rfl⟩
  obtain ⟨h20, h21, h2s, h2c, h2k, h2st⟩ := h2
  set e3 := txnSetMany e2 0 0 w1 with he3
  obtain ⟨h31, h32, h33, h34, h35, h36⟩ :=
    txnSetMany_spec w1 e2 0 0 (by rw [h20])
  rw [← he3] at h31 h32 h33 h34 h35 h36
  have h30 : e3.txns 0 = ⟨wmap 0 w1, .active, 0, 0⟩ := by
    rw [h31, h20]
    simp
  have h3b : e3.txns 1 = ⟨[], .active, 1, 0⟩ := by rw [h32 1 (by omega), h21]
  obtain ⟨h41, h42, h43, h44, h45, h46⟩ :=
    txnSetMany_spec w2 e3 1 0 (by rw [h3b])
  refine ⟨?_, ?_, ?_, ?_, ?_, ?_⟩
  · rw [h42 0 (by omega), h30]
  · rw [h41, h3b]
    simp
  · rw [h43, h33, h2s, he0]
  · rw [h45, h35, h2c]
  · rw [h44, h34, h2k]
  · rw [h46, h36, h2st]

/-- Full trace of the conflict scenario, as the repository's test replays
it: the second transaction's first commit attempt fails immediately with
the busy verdict while the first is still open (no blocking, nothing
changed); the first transaction then commits, applying exactly its own
writes; the second's next commit attempt fails with the conflict verdict,
marks it `conflicted`, and applies nothing. -/
theorem conflictScenario_trace (base : Store) (w1 w2 : List (List Nat × List Nat))
    (hov : keysOverlap w2 w1 = true) :
    (txnCommit (conflictScenario base w1 w2) 1).2 = some .lockBusy ∧
    (txnCommit (conflictScenario base w1 w2) 1).1 = conflictScenario base w1 w2 ∧
    ((conflictScenario base w1 w2).txns 1).state = .active ∧
    (txnCommit (conflictScenario base w1 w2) 0).2 = none ∧
    (txnCommit (conflictScenario base w1 w2) 0).1.stores 0 =
      w1.foldl (fun s w => dbSet s w.1 w.2) base ∧
    (txnCommit (txnCommit (conflictScenario base w1 w2) 0).1 1).2 = some .conflict ∧
    ((txnCommit (txnCommit (conflictScenario base w1 w2) 0).1 1).1.txns 1).state = .conflicted ∧
    (txnCommit (txnCommit (conflictScenario base w1 w2) 0).1 1).1.stores 0 =
      (txnCommit (conflictScenario base w1 w2) 0).1.stores 0 := by
  obtain ⟨ht0, ht1, hst, hcnt, hclk, hstat⟩ := conflictScenario_spec base w1 w2
  set e4 := conflictScenario base w1 w2 with he4
  have hrange : List.range 2 = [0, 1] := rfl
  have hact1 : (e4.txns 1).state = .active := by rw [ht1]
  have hact0 : (e4.txns 0).state = .active := by rw [ht0]
  -- step 1: txn2's commit is told to wait, and nothing changes
  have hlock1 : lockBlocker e4 1 = true := by
    unfold lockBlocker
    rw [hcnt, hrange]
    simp only [List.any_cons, List.any_nil, Bool.or_false, Bool.or_eq_true]
    left
    rw [ht0, ht1]
    simp [overlaps_wmap, hov]
  have hstep1 : txnCommit e4 1 = (e4, some .lockBusy) := by
    unfold txnCommit
    rw [if_pos hact1, hlock1]
    simp
  -- step 2: txn1's commit succeeds and applies exactly w1
  have hlock0 : lockBlocker e4 0 = false := by
    unfold lockBlocker
    rw [hcnt, hrange]
    simp [ht0, ht1]
  have hconf0 : conflictBlocker e4 0 = false := by
    unfold conflictBlocker
    rw [hcnt, hrange]
    simp [ht0, ht1]
  have hstep2 : txnCommit e4 0 =
      ({ e4 with
         stores := applyWrites e4.stores (e4.txns 0).writes,
         txns := fun j =>
           if j = 0 then { e4.txns 0 with state := .committed, commitSeq := e4.clock }
           else e4.txns j,
         clock := e4.clock + 1 }, none) := by
    unfold txnCommit
    rw [if_pos hact0, hlock0, hconf0]
    simp
  set e5 := (txnCommit e4 0).1 with he5
  have he5eq : e5 = { e4 with
      stores := applyWrites e4.stores (e4.txns 0).writes,
      txns := fun j =>
        if j = 0 then { e4.txns 0 with state := .committed, commitSeq := e4.clock }
        else e4.txns j,
      clock := e4.clock + 1 } := by rw [he5, hstep2]
  have he5stores : e5.stores 0 = w1.foldl (fun s w => dbSet s w.1 w.2) base := by
    rw [he5eq]
    show applyWrites e4.stores (e4.txns 0).writes 0 = _
    rw [ht0]
    show applyWrites e4.stores (wmap 0 w1) 0 = _
    rw [applyWrites_wmap, hst]
    simp
  have he5t1 : e5.txns 1 = ⟨wmap 0 w2, .active, 1, 0⟩ := by
    rw [he5eq]
    simp [ht1]
  have he5t0 : e5.txns 0 = { e4.txns 0 with state := .committed, commitSeq := e4.clock } := by
    rw [he5eq]
    simp
  have he5cnt : e5.txnCount = 2 := by rw [he5eq]; exact hcnt
  -- step 3: txn2's next commit fails with conflict, applying nothing
  have hact5 : (e5.txns 1).state = .active := by rw [he5t1]
  have hlock5 : lockBlocker e5 1 = false := by
    unfold lockBlocker
    rw [he5cnt, hrange]
    simp [he5t0, he5t1, ht0]
  have hconf5 : conflictBlocker e5 1 = true := by
    unfold conflictBlocker
    rw [he5cnt, hrange]
    simp only [List.any_cons, List.any_nil, Bool.or_false, Bool.or_eq_true]
    left
    rw [he5t0, he5t1, ht0, hclk]
    simp [overlaps_wmap, hov]
  have hstep3 : txnCommit e5 1 =
      ({ e5 with
         txns := fun j => if j = 1 then { e5.txns 1 with state := .conflicted } else e5.txns j },
       some .conflict) := by
    unfold txnCommit
    rw [if_pos hact5, hlock5, hconf5]
    simp
  refine ⟨?_, ?_, hact1, ?_, ?_, ?_, ?_, ?_⟩
  · rw [hstep1]
  · rw [hstep1]
  · rw [hstep2]
  · exact he5stores
  · rw [hstep3]
  · rw [hstep3]
    simp
  · rw [hstep3]

/-! ## Stop-only slices on forward schemas -/

theorem lexCmp_lt_of_lt_of_not_gt (A B C : List Nat)
    (h1 : lexCmp A B = .lt) (h2 : lexCmp B C ≠ .gt) : lexCmp A C = .lt := by
  cases h : lexCmp B C with
  | lt => exact lexCmp_trans_lt A B C h1 h
  | eq => rw [← (lexCmp_eq_iff B C).mp h]; exact h1
  | gt => exact absurd h h2

/-- A store whose keys are all encodings of well-typed composites. -/
def StoreWellFormed (sch : KindList) (db : Store) : Prop :=
  ∀ e ∈ db, ∃ vs, wellTyped sch vs ∧ encodeFields sch vs = e.1

/-- On an encoded key, the logical stop-bound check is the byte-wise one
whenever the schema is forward. -/
theorem keyLeStop_eq_lexLe (sch : KindList) (b vs : List FieldVal)
    (hb : wellTyped sch b) (hvs : wellTyped sch vs)
    (hf : ∀ k ∈ sch, k.isRev = false) :
    keyLeStop sch b (encodeFields sch vs) = lexLe (encodeFields sch vs) (encodeFields sch b) := by
  unfold keyLeStop lexLe
  rw [decodeFields_encodeFields sch vs hvs]
  rw [lexCmp_encodeFields sch vs b hvs hb hf]

/-- On a sorted, well-formed store with a forward schema, the stop-only
slice is exactly the byte-interval rule of the spec: every entry with
encoded key byte-wise at most the encoded bound, ascending. -/
theorem getRange_stopOnly_forward (sch : KindList) (db : Store) (b : List FieldVal)
    (hs : StoreSorted db) (hwf : StoreWellFormed sch db) (hb : wellTyped sch b)
    (hf : ∀ k ∈ sch, k.isRev = false) :
    getRange sch db none (some b) false =
      db.filter (fun e => lexLe e.1 (encodeFields sch b)) := by
  have hgr : getRange sch db none (some b) false =
      db.takeWhile (fun e => keyLeStop sch b e.1) := by
    simp [getRange]
  rw [hgr]
  have hR : List.Pairwise (fun x y : List Nat × List Nat =>
      lexCmp x.1 y.1 = .lt ∧
      (∃ vs, wellTyped sch vs ∧ encodeFields sch vs = x.1) ∧
      (∃ vs, wellTyped sch vs ∧ encodeFields sch vs = y.1)) db := by
    apply List.Pairwise.imp_of_mem ?_ hs
    intro x y hx hy hlt
    exact ⟨hlt, hwf x hx, hwf y hy⟩
  rw [takeWhile_eq_filter_of_sorted _ _ db hR ?_]
  · apply List.filter_congr
    intro e he
    obtain ⟨vs, hvs, henc⟩ := hwf e he
    rw [← henc]
    exact keyLeStop_eq_lexLe sch b vs hb hvs hf
  · rintro x y ⟨hlt, ⟨vsx, hvsx, hex⟩, vsy, hvsy, hey⟩ hpy
    rw [← hey, keyLeStop_eq_lexLe sch b vsy hb hvsy hf] at hpy
    rw [← hex, keyLeStop_eq_lexLe sch b vsx hb hvsx hf]
    unfold lexLe at hpy ⊢
    have hxb : lexCmp (encodeFields sch vsx) (encodeFields sch b) = .lt := by
      apply lexCmp_lt_of_lt_of_not_gt _ (encodeFields sch vsy)
      · rw [hex, hey]; exact hlt
      · intro hgt
        rw [hgt] at hpy
        exact absurd hpy (by simp)
    rw [hxb]

/-- The stop-only rule exactly as claim C7 states it: ascending from the
beginning of the keyspace, with the bound compared on the encoded bytes
of the composite key. -/
def getRangeStopOnlyByBytes (sch : KindList) (db : Store) (b : List FieldVal) : Store :=
  db.filter (fun e => lexLe e.1 (encodeFields sch b))

/-- Every entry of a built store has the key of one of the build ops. -/
theorem buildStore_keys_sub :
    ∀ (ops : List (List Nat × List Nat)) (db0 : Store) (e : List Nat × List Nat),
      e ∈ ops.foldl (fun db op => dbSet db op.1 op.2) db0 →
      (∃ op ∈ ops, e.1 = op.1) ∨ e ∈ db0 := by
  intro ops
  induction ops with
  | nil => intro db0 e he; right; exact he
  | cons op ops ih =>
    intro db0 e he
    rcases ih (dbSet db0 op.1 op.2) e he with h | h
    · obtain ⟨op', hop', hk⟩ := h
      exact Or.inl ⟨op', List.mem_cons_of_mem _ hop', hk⟩
    · rcases dbSet_mem_key e h with hk | hk
      · exact Or.inl ⟨op, by simp, hk⟩
      · exact Or.inr hk

/-- A store built from encoded well-typed ops is well-formed. -/
theorem storeWellFormed_buildStore (sch : KindList) (ops : List (List Nat × List Nat))
    (h : ∀ op ∈ ops, ∃ vs, wellTyped sch vs ∧ encodeFields sch vs = op.1) :
    StoreWellFormed sch (buildStore ops) := by
  intro e he
  rcases buildStore_keys_sub ops [] e he with hk | hk
  · obtain ⟨op, hop, hkey⟩ := hk
    obtain ⟨vs, hvs, henc⟩ := h op hop
    exact ⟨vs, hvs, by rw [henc, hkey]⟩
  · simp at hk

/-! ## The claims -/

/-- C1: For every database and every pair of bound keys where start is
byte-wise greater than stop, the slice `db[start:stop]` iterates
descending over the inclusive interval `[stop, start]`, and passing any
explicit reverse flag does not change this direction. -/
theorem claim_C1 (sch : KindList) (db : Store) (a b : List FieldVal) (r : Bool)
    (hs : StoreSorted db)
    (h : lexCmp (encodeFields sch b) (encodeFields sch a) = .lt) :
    getRange sch db (some a) (some b) r = getRange sch db (some a) (some b) false ∧
    (∀ e, e ∈ getRange sch db (some a) (some b) r ↔
      e ∈ db ∧ lexLe (encodeFields sch b) e.1 = true ∧
        lexLe e.1 (encodeFields sch a) = true) ∧
    List.Pairwise (fun x y => lexCmp y.1 x.1 = .lt)
      (getRange sch db (some a) (some b) r) := by
  have hgr : ∀ r' : Bool, getRange sch db (some a) (some b) r' =
      (db.filter (fun e =>
        lexLe (encodeFields sch b) e.1 && lexLe e.1 (encodeFields sch a))).reverse := by
    intro r'
    simp only [getRange]
    rw [h]
  refine ⟨by rw [hgr r, hgr false], ?_, ?_⟩
  · intro e
    rw [hgr r]
    simp [List.mem_reverse, List.mem_filter]
  · rw [hgr r]
    rw [List.pairwise_reverse]
    exact List.Pairwise.filter _ hs

/-- C1 witness: with keys `'k0'..'k3'` present, `db['k2':'k1']` yields
`[('k2','v2'), ('k1','v1')]` and the explicit reverse flag is irrelevant. -/
theorem claim_C1_witness :
    getRange strSchema strDb (some [.vbytes [107, 50]]) (some [.vbytes [107, 49]]) true =
      getRange strSchema strDb (some [.vbytes [107, 50]]) (some [.vbytes [107, 49]]) false ∧
    getRange strSchema strDb (some [.vbytes [107, 50]]) (some [.vbytes [107, 49]]) true =
      [(encodeFields strSchema [.vbytes [107, 50]], encodeFields strSchema [.vbytes [118, 50]]),
       (encodeFields strSchema [.vbytes [107, 49]], encodeFields strSchema [.vbytes [118, 49]])] :=
  ⟨(claim_C1 strSchema strDb [.vbytes [107, 50]] [.vbytes [107, 49]] true
      (by decide) (by decide)).1,
   by decide⟩

/-- C2: For every supported Index kind and every composite key/value
combination of those kinds, decoding the encoding of a representable
value returns that value. -/
theorem claim_C2 (ks : KindList) (vs : List FieldVal) (h : wellTyped ks vs) :
    decodeFields ks (encodeFields ks vs) = some vs :=
  decodeFields_encodeFields ks vs h

/-- C2 witness: the `U8` boundary values 0 and 255 round-trip, as does a
composite mixing string, reversed-u16, bytes, serialized and u64 parts. -/
theorem claim_C2_witness :
    decodeFields [.u8] (encodeFields [.u8] [.vnat 255]) = some [.vnat 255] ∧
    decodeFields [.u8] (encodeFields [.u8] [.vnat 0]) = some [.vnat 0] ∧
    decodeFields [.str, .u16rev, .bytes, .serialized, .u64]
        (encodeFields [.str, .u16rev, .bytes, .serialized, .u64]
          [.vbytes [104, 105, 0, 1], .vnat 65535, .vbytes [0, 255], .vbytes [7],
           .vnat 18446744073709551615]) =
      some [.vbytes [104, 105, 0, 1], .vnat 65535, .vbytes [0, 255], .vbytes [7],
            .vnat 18446744073709551615] :=
  ⟨claim_C2 [.u8] [.vnat 255] (by decide),
   claim_C2 [.u8] [.vnat 0] (by decide),
   claim_C2 _ _ (by decide)⟩

/-- C3: Full iteration yields entries exactly in ascending byte order of
the encoded composite keys regardless of insertion order, and for forward
field types this byte order equals standard lexicographic tuple
comparison with field `i` dominating field `i+1`. -/
theorem claim_C3 :
    (∀ ops : List (List Nat × List Nat), StoreSorted (buildStore ops)) ∧
    (∀ (sch : KindList) (db : Store), getRange sch db none none false = db) ∧
    (∀ (ks : KindList) (vs₁ vs₂ : List FieldVal), wellTyped ks vs₁ → wellTyped ks vs₂ →
      (∀ k ∈ ks, k.isRev = false) →
      lexCmp (encodeFields ks vs₁) (encodeFields ks vs₂) = tupleCmp vs₁ vs₂) :=
  ⟨buildStore_sorted, fun _ _ => rfl, lexCmp_encodeFields⟩

/-- C3 witness: the eight `(U64, U32, U16, String)` keys of `test_data`,
inserted out of order, iterate as `sorted(test_data)`. -/
theorem claim_C3_witness :
    StoreSorted mkDb ∧
    mkDb = mkDataSorted.map (fun p =>
      (encodeFields mkKeySchema p.1, encodeFields mkValSchema p.2)) ∧
    getRange mkKeySchema mkDb none none false = mkDb ∧
    lexCmp (encodeFields mkKeySchema (mkData.get! 1).1)
        (encodeFields mkKeySchema (mkData.get! 6).1) =
      tupleCmp (mkData.get! 1).1 (mkData.get! 6).1 :=
  ⟨claim_C3.1 _, by decide, claim_C3.2.1 mkKeySchema mkDb,
   claim_C3.2.2 mkKeySchema _ _ (by decide) (by decide) (by decide)⟩

/-- C4: For a single `U16Rev` key schema, the Rev encoding is the
bit-complement `max_value - value`, so ascending byte order inverts the
numeric order; inserting keys 0..99 ascending, a full ascending-by-bytes
scan yields the keys in descending logical order 99, 98, ..., 0. -/
theorem claim_C4 :
    (∀ n m : Nat, n ≤ 65535 → m ≤ 65535 →
      lexCmp (encodeField .u16rev (.vnat n)) (encodeField .u16rev (.vnat m)) = natCmp m n) ∧
    (∀ n : Nat, n ≤ 65535 → encodeField .u16rev (.vnat n) = beBytes 2 (65535 - n)) ∧
    numsDb.map (fun e => decodeFields numsKeySchema e.1) =
      ((List.range 100).reverse).map (fun i => some [FieldVal.vnat i]) := by
  have henc : ∀ n : Nat, encodeField .u16rev (.vnat n) = beBytes 2 (65535 - n) := by
    intro n
    simp [encodeField, IndexKind.width, IndexKind.isRev]
  refine ⟨?_, fun n _ => henc n, by decide⟩
  intro n m hn hm
  rw [henc n, henc m]
  rw [← List.append_nil (beBytes 2 (65535 - n)), ← List.append_nil (beBytes 2 (65535 - m))]
  rw [lexCmp_beBytes 2 _ _ [] [] (by norm_num; omega) (by norm_num; omega)]
  rw [show lexCmp [] [] = .eq from rfl, ordThen_eq_right]
  unfold natCmp
  by_cases h1 : m < n
  · have h2 : 65535 - n < 65535 - m := by omega
    have h3 : ¬ n < m := by omega
    simp [h1, h2, h3]
  · by_cases h2 : n < m
    · have h3 : ¬ 65535 - n < 65535 - m := by omega
      have h4 : 65535 - m < 65535 - n := by omega
      simp [h1, h2, h3, h4]
    · have h3 : ¬ 65535 - n < 65535 - m := by omega
      have h4 : ¬ 65535 - m < 65535 - n := by omega
      simp [h1, h2, h3, h4]

/-- C4 witness: the inversion instantiated at 3 and 98, and the complement
form at 5. -/
theorem claim_C4_witness :
    lexCmp (encodeField .u16rev (.vnat 3)) (encodeField .u16rev (.vnat 98)) = natCmp 98 3 ∧
    encodeField .u16rev (.vnat 5) = beBytes 2 (65535 - 5) :=
  ⟨claim_C4.1 3 98 (by decide) (by decide), claim_C4.2.1 5 (by decide)⟩

/-- Encoded single-`StringIndex` composite of a byte payload (used for
both keys and values of the string databases). -/
def sEnc (bs : List Nat) : List Nat := encodeFields strSchema [.vbytes bs]

/-- `test_transaction_conflict` data: `k1='v1'` committed. -/
def c5base : Store := buildStore [(sEnc [107, 49], sEnc [118, 49])]

/-- txn1's writes: `k2='v2'`, `k3='v3'`. -/
def c5w1 : List (List Nat × List Nat) :=
  [(sEnc [107, 50], sEnc [118, 50]), (sEnc [107, 51], sEnc [118, 51])]

/-- txn2's writes: `k2='v2-e'` (overlapping `k2`). -/
def c5w2 : List (List Nat × List Nat) :=
  [(sEnc [107, 50], sEnc [118, 50, 45, 101])]

/-- C5 counterexample: in the test's scenario the second transaction's
first commit attempt returns an error *while the first transaction is
still active* — it does not block until the first resolves; the error is
the busy verdict, not the conflict verdict, and the transaction is not
conflicted by it. -/
theorem claim_C5_counterexample :
    (txnCommit (conflictScenario c5base c5w1 c5w2) 1).2 = some .lockBusy ∧
    (txnCommit (conflictScenario c5base c5w1 c5w2) 1).2 ≠ some .conflict ∧
    ((txnCommit (conflictScenario c5base c5w1 c5w2) 1).1.txns 0).state = .active ∧
    ((txnCommit (conflictScenario c5base c5w1 c5w2) 1).1.txns 1).state ≠ .conflicted := by
  refine ⟨by decide, by decide, by decide, by decide⟩

/-- C5 (amended): when two transactions begin from the same committed
state and their write sets overlap, a commit by the second while the
first is still active fails immediately with the busy error and leaves
everything unchanged (the transaction stays active); after the first
commits — applying exactly its own writes — the second's next commit
fails with the conflict error, the transaction becomes `conflicted`, and
none of its writes are applied. -/
theorem claim_C5 (base : Store) (w1 w2 : List (List Nat × List Nat))
    (hov : keysOverlap w2 w1 = true) :
    (txnCommit (conflictScenario base w1 w2) 1).2 = some .lockBusy ∧
    (txnCommit (conflictScenario base w1 w2) 1).1 = conflictScenario base w1 w2 ∧
    ((conflictScenario base w1 w2).txns 1).state = .active ∧
    (txnCommit (conflictScenario base w1 w2) 0).2 = none ∧
    (txnCommit (conflictScenario base w1 w2) 0).1.stores 0 =
      w1.foldl (fun s w => dbSet s w.1 w.2) base ∧
    (txnCommit (txnCommit (conflictScenario base w1 w2) 0).1 1).2 = some .conflict ∧
    ((txnCommit (txnCommit (conflictScenario base w1 w2) 0).1 1).1.txns 1).state =
      .conflicted ∧
    (txnCommit (txnCommit (conflictScenario base w1 w2) 0).1 1).1.stores 0 =
      (txnCommit (conflictScenario base w1 w2) 0).1.stores 0 :=
  conflictScenario_trace base w1 w2 hov

/-- C5 witness: the test's concrete scenario; the final state holds
exactly `k1='v1'`, `k2='v2'`, `k3='v3'` — only txn1's writes. -/
theorem claim_C5_witness :
    (txnCommit (conflictScenario c5base c5w1 c5w2) 1).2 = some .lockBusy ∧
    (txnCommit (conflictScenario c5base c5w1 c5w2) 0).2 = none ∧
    (txnCommit (txnCommit (conflictScenario c5base c5w1 c5w2) 0).1 1).2 = some .conflict ∧
    (txnCommit (conflictScenario c5base c5w1 c5w2) 0).1.stores 0 =
      [(sEnc [107, 49], sEnc [118, 49]), (sEnc [107, 50], sEnc [118, 50]),
       (sEnc [107, 51], sEnc [118, 51])] :=
  ⟨(claim_C5 c5base c5w1 c5w2 (by decide)).1,
   (claim_C5 c5base c5w1 c5w2 (by decide)).2.2.2.1,
   (claim_C5 c5base c5w1 c5w2 (by decide)).2.2.2.2.2.1,
   by decide⟩

/-! ### C6: the rollback re-begin -/

/-- `test_rollback` data: `k1='v1'`, `k2='v2'` committed. -/
def c6base : Store :=
  buildStore [(sEnc [107, 49], sEnc [118, 49]), (sEnc [107, 50], sEnc [118, 50])]

def c6e0 : Env :=
  { stores := fun d => if d = 0 then c6base else [],
    txns := fun _ => ⟨[], .rolledBack, 0, 0⟩,
    txnCount := 0, clock := 0, status := true }

/-- Transaction begun, `k1='v1-e'` and `del k2` buffered. -/
def c6e3 : Env :=
  (txnSet (txnSet (txnBegin c6e0).1 0 0 (sEnc [107, 49])
    (some (sEnc [118, 49, 45, 101]))).1 0 0 (sEnc [107, 50]) none).1

/-- After `txn.rollback()`. -/
def c6e4 : Env := (txnRollback c6e3 0).1

/-- After the post-rollback write `k3='v3'`. -/
def c6e5 : Env := (txnSet c6e4 0 0 (sEnc [107, 51]) (some (sEnc [118, 51]))).1

/-- The committed store after the scope's closing commit. -/
def c6final : Store := (txnCommit c6e5 0).1.stores 0

/-- C6 counterexample: replaying `test_rollback`, the write issued after
`rollback()` is accepted without error and takes effect at the closing
commit — `k3` is present afterwards, while the rolled-back `k1`/`k2`
changes are gone — contradicting "any subsequent commit() or rollback()
call (and any further write ...) signals InvalidStateError rather than
taking effect" for the rolled-back state. -/
theorem claim_C6_counterexample :
    (txnRollback c6e3 0).2 = none ∧
    (txnSet c6e4 0 0 (sEnc [107, 51]) (some (sEnc [118, 51]))).2 = none ∧
    (txnCommit c6e5 0).2 = none ∧
    dbGet c6final (sEnc [107, 51]) = some (sEnc [118, 51]) ∧
    dbGet c6final (sEnc [107, 49]) = some (sEnc [118, 49]) ∧
    dbGet c6final (sEnc [107, 50]) = some (sEnc [118, 50]) := by
  decide

/-- C6 (amended): `committed` and `conflicted` are terminal — commit,
rollback and writes on them fail with the invalid-state error and change
nothing.  `rolled_back` is not terminal: `rollback()` re-begins the
transaction (the binding's default), leaving it active with an empty
write buffer, so later writes are accepted and a later commit applies
them. -/
theorem claim_C6 :
    (∀ (e : Env) (i : Nat),
      (e.txns i).state = .committed ∨ (e.txns i).state = .conflicted →
      txnCommit e i = (e, some .invalidState) ∧
      txnRollback e i = (e, some .invalidState) ∧
      (∀ (d : Nat) (k : List Nat) (v : Option (List Nat)),
        txnSet e i d k v = (e, some .invalidState))) ∧
    (∀ (e : Env) (i : Nat), (e.txns i).state = .active →
      (txnRollback e i).2 = none ∧
      ((txnRollback e i).1.txns i).state = .active ∧
      ((txnRollback e i).1.txns i).writes = []) := by
  constructor
  · intro e i h
    have hne : (e.txns i).state ≠ .active := by
      rcases h with h | h <;> rw [h] <;> intro hh <;> cases hh
    refine ⟨?_, ?_, ?_⟩
    · unfold txnCommit; rw [if_neg hne]
    · unfold txnRollback; rw [if_neg hne]
    · intro d k v; unfold txnSet; rw [if_neg hne]
  · intro e i h
    unfold txnRollback
    rw [if_pos h]
    refine ⟨rfl, ?_, ?_⟩ <;> simp [h]

/-- An environment holding one committed transaction. -/
def c6cEnv : Env :=
  { stores := fun _ => [], txns := fun _ => ⟨[], .committed, 0, 0⟩,
    txnCount := 1, clock := 1, status := true }

/-- C6 witness: terminal behaviour at a committed transaction, and the
re-begin at the concrete rollback of the `test_rollback` replay. -/
theorem claim_C6_witness :
    txnCommit c6cEnv 0 = (c6cEnv, some .invalidState) ∧
    txnRollback c6cEnv 0 = (c6cEnv, some .invalidState) ∧
    (txnRollback c6e3 0).2 = none ∧
    ((txnRollback c6e3 0).1.txns 0).writes = [] :=
  ⟨(claim_C6.1 c6cEnv 0 (Or.inl rfl)).1,
   (claim_C6.1 c6cEnv 0 (Or.inl rfl)).2.1,
   (claim_C6.2 c6e3 0 (by decide)).1,
   (claim_C6.2 c6e3 0 (by decide)).2.2⟩

/-! ### C7: the stop-only slice -/

/-- C7 counterexample: on the `U16Rev` keyspace holding 0..99, the
stop-only slice `nums[:2]` is empty, while the rule as the claim states
it — bound compared on the encoded bytes of the composite key — selects
the 98 entries 99..2. -/
theorem claim_C7_counterexample :
    getRange numsKeySchema numsDb none (some [.vnat 2]) false = [] ∧
    getRangeStopOnlyByBytes numsKeySchema numsDb [.vnat 2] ≠ [] := by
  refine ⟨by decide, by decide⟩

/-- C7 (amended): `db[:stop]` walks ascending byte order from the
beginning and stops at the first entry whose *decoded* key exceeds the
bound.  For forward key schemas this equals the byte-wise rule, so
`db[:'k1']` yields `[('k0','v0'), ('k1','v1')]`; on the `U16Rev`
keyspace holding 0..99 the slice `nums[:2]` is empty, because the first
entry in byte order decodes to 99 > 2. -/
theorem claim_C7 :
    (∀ (sch : KindList) (db : Store) (b : List FieldVal),
      StoreSorted db → StoreWellFormed sch db → wellTyped sch b →
      (∀ k ∈ sch, k.isRev = false) →
      getRange sch db none (some b) false = getRangeStopOnlyByBytes sch db b) ∧
    getRange strSchema strDb none (some [.vbytes [107, 49]]) false =
      [(sEnc [107, 48], sEnc [118, 48]), (sEnc [107, 49], sEnc [118, 49])] ∧
    getRange numsKeySchema numsDb none (some [.vnat 2]) false = [] :=
  ⟨fun sch db b hs hwf hb hf => getRange_stopOnly_forward sch db b hs hwf hb hf,
   by decide, by decide⟩

theorem strDb_wellFormed : StoreWellFormed strSchema strDb := by
  apply storeWellFormed_buildStore
  intro op hop
  simp only [strOps, List.mem_cons, List.not_mem_nil, or_false] at hop
  rcases hop with h | h | h | h
  · exact ⟨[.vbytes [107, 48]], by decide, by rw [h]⟩
  · exact ⟨[.vbytes [107, 49]], by decide, by rw [h]⟩
  · exact ⟨[.vbytes [107, 50]], by decide, by rw [h]⟩
  · exact ⟨[.vbytes [107, 51]], by decide, by rw [h]⟩

/-- C7 witness: the forward-schema equivalence instantiated on the string
database at bound `'k1'`. -/
theorem claim_C7_witness :
    getRange strSchema strDb none (some [.vbytes [107, 49]]) false =
      getRangeStopOnlyByBytes strSchema strDb [.vbytes [107, 49]] :=
  claim_C7.1 strSchema strDb [.vbytes [107, 49]] (by decide) strDb_wellFormed
    (by decide) (by decide)

/-! ### C8–C10 -/

def c8db : Store :=
  buildStore [(sEnc [107, 49], sEnc [118, 49]), (sEnc [107, 50], sEnc [118, 50])]

/-- C8 counterexample: replaying the tail of `test_crud` — `'k1'` set,
then deleted twice — the second delete, of the now-absent key, still
returns the truthy success result, not false, so the claim's "returns
true then false" is false on the code: the binding's delete does not
report whether a removal occurred. -/
theorem claim_C8_counterexample :
    (dbDelete c8db (sEnc [107, 49])).2 = true ∧
    dbGet (dbDelete c8db (sEnc [107, 49])).1 (sEnc [107, 49]) = none ∧
    (dbDelete (dbDelete c8db (sEnc [107, 49])).1 (sEnc [107, 49])).2 ≠ false := by
  decide

/-- C8 (amended): `delete(key)` removes the key if present, leaves every
other key's binding unchanged, and deleting an absent key is not an
error; its return value does not report whether a removal occurred — it
is the truthy success value whether the key was present or absent, so
calling delete twice on the same key succeeds (truthy) both times, as
`test_crud` asserts. -/
theorem claim_C8 (db : Store) (k : List Nat) (hs : StoreSorted db) :
    dbGet (dbDelete db k).1 k = none ∧
    (∀ k', k' ≠ k → dbGet (dbDelete db k).1 k' = dbGet db k') ∧
    (dbDelete db k).2 = true ∧
    (dbDelete (dbDelete db k).1 k).2 = true :=
  ⟨dbGet_dbDelete_self db k hs,
   fun k' hne => dbGet_dbDelete_other db k k' hne,
   dbDelete_flag db k,
   dbDelete_flag (dbDelete db k).1 k⟩

/-- C8 witness: deleting `'k1'` twice succeeds both times, the key is
gone after the first delete, and `'k2'` is untouched. -/
theorem claim_C8_witness :
    dbGet (dbDelete c8db (sEnc [107, 49])).1 (sEnc [107, 49]) = none ∧
    dbGet (dbDelete c8db (sEnc [107, 49])).1 (sEnc [107, 50]) =
      dbGet c8db (sEnc [107, 50]) ∧
    (dbDelete c8db (sEnc [107, 49])).2 = true ∧
    (dbDelete (dbDelete c8db (sEnc [107, 49])).1 (sEnc [107, 49])).2 = true ∧
    dbGet c8db (sEnc [107, 50]) = some (sEnc [118, 50]) :=
  ⟨(claim_C8 c8db (sEnc [107, 49]) (by decide)).1,
   (claim_C8 c8db (sEnc [107, 49]) (by decide)).2.1 (sEnc [107, 50]) (by decide),
   (claim_C8 c8db (sEnc [107, 49]) (by decide)).2.2.1,
   (claim_C8 c8db (sEnc [107, 49]) (by decide)).2.2.2,
   by decide⟩

/-- C9: on a single-`StringIndex` key schema, a str key and its UTF-8
byte encoding denote the same key: after `db[s] = v` for a unicode
string `s`, reading `db[s.encode('utf-8')]` returns `v`. -/
theorem claim_C9 (db : Store) (s v : List Nat)
    (hsv : ∀ c ∈ s, validScalar c) (hvv : ∀ c ∈ v, validScalar c) :
    sdbGet (sdbSet db (.pstr s) (.pstr v)) (.pbytes (utf8Encode s)) = some v := by
  unfold sdbGet sdbSet
  have hkey : strKeyEnc (PyVal.pbytes (utf8Encode s)) = strKeyEnc (.pstr s) := rfl
  rw [hkey, dbGet_dbSet]
  have hdec : decodeFields [.str] (strKeyEnc (.pstr v)) = some [.vbytes (utf8Encode v)] := by
    unfold strKeyEnc stringPayload
    apply decodeFields_encodeFields
    refine ⟨?_, trivial⟩
    exact utf8Encode_lt256 v (fun c hc => (hvv c hc).1)
  simp only [hdec]
  exact utf8Decode_utf8Encode v hvv

/-- C9 witness: the smart-quoted string of `test_string_encoding`
(`"‶hello″"`), written through the str form and read back
through its UTF-8 bytes. -/
theorem claim_C9_witness :
    sdbGet (sdbSet [] (.pstr [8246, 104, 101, 108, 108, 111, 8243])
        (.pstr [8246, 104, 101, 108, 108, 111, 8243]))
      (.pbytes (utf8Encode [8246, 104, 101, 108, 108, 111, 8243])) =
      some [8246, 104, 101, 108, 108, 111, 8243] :=
  claim_C9 [] _ _ (by decide) (by decide)

/-- C10: environment close() followed by open() leaves every database's
contents unchanged — reads after the reopen return the last value written
— and only the open/closed status changes across the cycle. -/
theorem claim_C10 (e : Env) (h : e.status = true) :
    (envClose e).1 = true ∧
    (envClose e).2 = { e with status := false } ∧
    (envOpen (envClose e).2).1 = true ∧
    (envOpen (envClose e).2).2 = e ∧
    (∀ (d : Nat) (k : List Nat), envGet (envOpen (envClose e).2).2 d k = envGet e d k) := by
  obtain ⟨st, tx, tc, ck, stat⟩ := e
  simp only at h
  subst h
  refine ⟨?_, ?_, ?_, ?_, ?_⟩ <;> simp [envClose, envOpen, envGet]

def c10e : Env :=
  envSet (envSet
    { stores := fun _ => [], txns := fun _ => ⟨[], .rolledBack, 0, 0⟩,
      txnCount := 0, clock := 0, status := true }
    0 (sEnc [107, 49]) (sEnc [118, 49])) 0 (sEnc [107, 50]) (sEnc [118, 50])

/-- C10 witness: `k1`, `k2` written, environment closed and reopened,
both keys read back unchanged. -/
theorem claim_C10_witness :
    (envClose c10e).1 = true ∧
    (envOpen (envClose c10e).2).2 = c10e ∧
    envGet (envOpen (envClose c10e).2).2 0 (sEnc [107, 49]) = some (sEnc [118, 49]) ∧
    envGet (envOpen (envClose c10e).2).2 0 (sEnc [107, 50]) = some (sEnc [118, 50]) :=
  ⟨(claim_C10 c10e rfl).1, (claim_C10 c10e rfl).2.2.2.1, by decide, by decide⟩

end Sonya
